import Mathlib

/-!
Formal model of the geometry/topology core of the Costumy repository
(`costumy/classes/point.py`, `line.py`, `panel.py`, `pattern.py`,
`design.py`).  The Python code computes with IEEE floats; the model
idealises float arithmetic as exact rational arithmetic (every float is a
rational number), and models Euclidean distances (`math.hypot`) as real
numbers.  Fallible Python code (raised exceptions) is modelled with
`Except`.
-/

namespace Costumy

/-- Model of `costumy.classes.point.Point`: a 2D coordinate pair. -/
structure Pt where
  x : ℚ
  y : ℚ
deriving DecidableEq, Repr

instance : Inhabited Pt := ⟨⟨0, 0⟩⟩

/-- Pointwise addition, `Point.__add__`. -/
def Pt.add (p q : Pt) : Pt := ⟨p.x + q.x, p.y + q.y⟩

/-- Pointwise subtraction, `Point.__sub__`. -/
def Pt.sub (p q : Pt) : Pt := ⟨p.x - q.x, p.y - q.y⟩

/-- Elementwise product, `Point.__mul__` with a `Point`/pair argument. -/
def Pt.mul (p q : Pt) : Pt := ⟨p.x * q.x, p.y * q.y⟩

/-- Pointwise negation, `Point.__neg__`. -/
def Pt.neg (p : Pt) : Pt := ⟨-p.x, -p.y⟩

instance : Add Pt := ⟨Pt.add⟩
instance : Sub Pt := ⟨Pt.sub⟩
instance : Mul Pt := ⟨Pt.mul⟩
instance : Neg Pt := ⟨Pt.neg⟩

/-- Model of `costumy.classes.line.Line` and its subclass `Curve`.
`pc = none` is a straight `Line`; `pc = some c` is a quadratic `Curve`
with control point `c`.  `endpoints` models the mutable integer index
list `Line.endpoints` (freshly constructed lines carry `[]`), and
`fsID` models `Line.freesewing_ID` (`none` = Python `None`). -/
structure Edge where
  p0 : Pt
  p1 : Pt
  pc : Option Pt := none
  endpoints : List ℕ := []
  fsID : Option ℤ := none
deriving DecidableEq, Repr

instance : Inhabited Edge := ⟨{ p0 := default, p1 := default }⟩

/-- Model of `Line.swap_endpoints`: swap `p0`/`p1` and reverse the
`endpoints` index list (the control point of a curve is untouched). -/
def Edge.swapEnds (e : Edge) : Edge :=
  { e with p0 := e.p1, p1 := e.p0, endpoints := e.endpoints.reverse }

/-- Model of `functions.pointOnLine`. -/
def pointOnLine (p0 p1 : Pt) (t : ℚ) : Pt :=
  ⟨(1 - t) * p0.x + t * p1.x, (1 - t) * p0.y + t * p1.y⟩

/-- Model of `functions.pointOnQuadCurve`. -/
def pointOnQuadCurve (p0 pc p1 : Pt) (t : ℚ) : Pt :=
  ⟨(1 - t) * (1 - t) * p0.x + (2 - 2 * t) * t * pc.x + t * t * p1.x,
   (1 - t) * (1 - t) * p0.y + (2 - 2 * t) * t * pc.y + t * t * p1.y⟩

/-- Point of an edge at parameter `t` (line or quadratic curve). -/
def Edge.pointAt (e : Edge) (t : ℚ) : Pt :=
  match e.pc with
  | none => pointOnLine e.p0 e.p1 t
  | some c => pointOnQuadCurve e.p0 c e.p1 t

/-- Model of `Line.sample` / `Curve.sample`: the start point, the interior
points at `t = i/quality` for `0 < i < quality`, and the end point. -/
def Edge.sample (e : Edge) (quality : ℕ) : List Pt :=
  e.p0 ::
    (((List.range (quality + 1)).filterMap fun i =>
        if i = 0 ∨ i = quality then none
        else some (e.pointAt ((i : ℚ) / (quality : ℚ)))) ++ [e.p1])

/-- Model of `costumy.classes.panel.Panel` (the fields touched by the
canonicalization pipeline). -/
structure Panel where
  name : String := "panel"
  translation : ℚ × ℚ × ℚ := (0, 0, 0)
  rotation : ℚ × ℚ × ℚ := (0, 0, 0)
  edges : List Edge := []
  vertices : List Pt := []
deriving DecidableEq, Repr

/-- The concatenated 5-point samples of all edges, as accumulated by
`Panel.get_bbox`. -/
def samplePts (es : List Edge) : List Pt :=
  (es.map fun e => e.sample 5).flatten

/-- One folding step of the bounding-box minimum in `Panel.get_bbox`. -/
def minStep (m p : Pt) : Pt := ⟨min p.x m.x, min p.y m.y⟩

/-- One folding step of the bounding-box maximum in `Panel.get_bbox`. -/
def maxStep (m p : Pt) : Pt := ⟨max p.x m.x, max p.y m.y⟩

/-- Model of `Panel.get_bbox`: fold componentwise min/max over all edge
samples, with both accumulators seeded at the origin `Point(0,0)`. -/
def Panel.getBbox (P : Panel) : Pt × Pt :=
  let sub := samplePts P.edges
  (sub.foldl minStep ⟨0, 0⟩, sub.foldl maxStep ⟨0, 0⟩)

/-- Round-half-to-even on an exact rational, the semantics of Python's
builtin `round` (idealised from binary floats to exact rationals). -/
def rheQ (q : ℚ) : ℤ :=
  if q - q.floor < 1 / 2 then q.floor
  else if 1 / 2 < q - q.floor then q.floor + 1
  else if Even q.floor then q.floor else q.floor + 1

/-- Python `round(q, nd)` on rationals. -/
def pyRoundQ (nd : ℕ) (q : ℚ) : ℚ := (rheQ (q * 10 ^ nd) : ℚ) / 10 ^ nd

/-- Model of the `Panel.center` property: midpoint of the (origin-seeded)
bounding box, rounded to 4 decimals (`round(center, 4)`). -/
def Panel.center (P : Panel) : Pt :=
  let mini := P.getBbox.1
  let maxi := P.getBbox.2
  let height := |maxi.y - mini.y|
  let width := |maxi.x - mini.x|
  ⟨pyRoundQ 4 (width / 2 + mini.x), pyRoundQ 4 (height / 2 + mini.y)⟩

/-- Model of `Panel.offset_in_cartesian`: `-self.center`. -/
def Panel.offsetInCartesian (P : Panel) : Pt := -P.center

/-- Model of `Panel.move`: translate vertices and every edge point. -/
def Panel.move (P : Panel) (off : Pt) : Panel :=
  { P with
    vertices := P.vertices.map (· + off),
    edges := P.edges.map fun e =>
      { e with p0 := e.p0 + off, p1 := e.p1 + off, pc := e.pc.map (· + off) } }

/-- Model of `Panel.scale`: multiply vertices and every edge point
elementwise by the scale vector. -/
def Panel.scale (P : Panel) (sc : Pt) : Panel :=
  { P with
    vertices := P.vertices.map (· * sc),
    edges := P.edges.map fun e =>
      { e with p0 := e.p0 * sc, p1 := e.p1 * sc, pc := e.pc.map (· * sc) } }

/-- Helper for `remakeEdges`: reassign `endpoints := [i, i+1]` position by
position; the final edge gets `[n-1, 0]` (the loop assignment followed by
`self.edges[-1].endpoints[1] = 0`). -/
def remakeGo (n : ℕ) : ℕ → List Edge → List Edge
  | _, [] => []
  | i, e :: rest =>
    { e with endpoints := if i + 1 = n then [i, 0] else [i, i + 1] } ::
      remakeGo n (i + 1) rest

/-- Edge-list part of `Panel.remake_vertices`. -/
def remakeEdges (es : List Edge) : List Edge := remakeGo es.length 0 es

/-- Model of `Panel.remake_vertices`: rebuild `vertices` from the edges'
start points and renumber all `endpoints`. -/
def Panel.remakeVertices (P : Panel) : Panel :=
  let es := remakeEdges P.edges
  { P with edges := es, vertices := es.map (·.p0) }

/-- Manhattan distance used by the `order_edges` scan:
`abs(edge.p0.x - origin[0]) + abs(edge.p0.y - origin[1])`. -/
def manh (o p : Pt) : ℚ := |p.x - o.x| + |p.y - o.y|

/-- One term of the shoelace accumulator `calculus` in `Panel.order_edges`. -/
def slTerm (e : Edge) : ℚ := (e.p1.x - e.p0.x) * (e.p1.y + e.p0.y)

/-- The shoelace sum `Σ (p1.x - p0.x) * (p1.y + p0.y)` over an edge list. -/
def shoelace (es : List Edge) : ℚ := (es.map slTerm).sum

/-- Helper for `bestShift`: the strict-improvement scan of
`Panel.order_edges` over the remaining edges, carrying the current index,
the best distance so far, and the best index so far. -/
def bestShiftGo (o : Pt) : List Edge → ℕ → ℚ → ℕ → ℕ
  | [], _, _, bi => bi
  | e :: rest, i, best, bi =>
    if manh o e.p0 < best then bestShiftGo o rest (i + 1) (manh o e.p0) i
    else bestShiftGo o rest (i + 1) best bi

/-- The `shiftValue` computed by `Panel.order_edges`: index of the first
edge whose start point attains the minimal Manhattan distance to the
origin (the scan starts from `float("inf")`, so the first edge always
initialises the accumulator).  On an empty edge list Python would hit an
`UnboundLocalError`; the model returns `0` there (no claim touches that
case). -/
def bestShift (o : Pt) : List Edge → ℕ
  | [] => 0
  | e :: rest => bestShiftGo o rest 1 (manh o e.p0) 0

/-- Model of `Panel.order_edges`: rotate the edge list so the chosen edge
comes first; if the shoelace sum is positive (clockwise) reverse the list
and swap every edge's endpoints; then `remake_vertices`. -/
def Panel.orderEdges (P : Panel) (origin : Pt) : Panel :=
  let s := bestShift origin P.edges
  let es1 := P.edges.rotate s
  let es2 := if 0 < shoelace P.edges then es1.reverse.map Edge.swapEnds else es1
  Panel.remakeVertices { P with edges := es2 }

/-- Model of `Panel.normalize_edge_order`:
`order_edges(origin=self.get_bbox()[0])`. -/
def Panel.normalizeEdgeOrder (P : Panel) : Panel :=
  P.orderEdges P.getBbox.1

/-- Model of `functions.reflection_of_point`: reflection of `p` across the
infinite line through `qi`, `qj` via the line-reflection matrix of the
implicit form `ax + by + c = 0`. -/
def reflectPt (p qi qj : Pt) : Pt :=
  let a := qi.y - qj.y
  let b := qj.x - qi.x
  let c := -(a * qi.x + b * qi.y)
  ⟨((b ^ 2 - a ^ 2) * p.x + (-2 * a * b) * p.y - 2 * c * a) / (a ^ 2 + b ^ 2),
   ((-2 * a * b) * p.x + (a ^ 2 - b ^ 2) * p.y - 2 * c * b) / (a ^ 2 + b ^ 2)⟩

/-- First part of `Panel.unfold` (everything before the recentring):
pop the symmetry edge, reorder the remaining edges starting at its end
point, mirror a deep copy across the symmetry edge (negating mirrored
`freesewing_ID`s), reverse the mirrored list and swap its endpoints,
append, and rebuild vertices. -/
def Panel.unfoldCore (P : Panel) (idx : ℕ) : Panel :=
  let sym := P.edges.getD idx default
  let P1 := Panel.orderEdges { P with edges := P.edges.eraseIdx idx } sym.p1
  let mirrored := P1.edges.map fun e =>
    { e with
      p0 := reflectPt e.p0 sym.p0 sym.p1,
      p1 := reflectPt e.p1 sym.p0 sym.p1,
      pc := e.pc.map (reflectPt · sym.p0 sym.p1),
      fsID := e.fsID.map (fun v => -v) }
  let mirrored2 := mirrored.reverse.map Edge.swapEnds
  Panel.remakeVertices { P1 with edges := P1.edges ++ mirrored2 }

/-- Model of `Panel.unfold`: the unfolded shape of `unfoldCore`, recentred
on its centroid (`self.move(self.offset_in_cartesian)`) and with the edge
order normalized. -/
def Panel.unfoldOn (P : Panel) (idx : ℕ) : Panel :=
  let P2 := P.unfoldCore idx
  (P2.move P2.offsetInCartesian).normalizeEdgeOrder

/-- Scalar fold of a running minimum, the per-component content of the
`get_bbox` minimum fold. -/
def foldMin (l : List ℚ) (z : ℚ) : ℚ := l.foldl (fun a q => min q a) z

/-- Scalar fold of a running maximum, the per-component content of the
`get_bbox` maximum fold. -/
def foldMax (l : List ℚ) (z : ℚ) : ℚ := l.foldl (fun a q => max q a) z

/-- The edge at position `i` of an edge list (`default` out of range). -/
def eAt (es : List Edge) (i : ℕ) : Edge := es.getD i default

/-- Type of the pickled mesh handed back by the triangulation subprocess
(its contents are opaque to the retry driver). -/
abbrev Mesh := ℕ

/-- Model of `Pattern._make_mesh_for_sim`.  The stub `tri` models one
invocation of the external triangulation subprocess: `tri n` is `some m`
when the `n`-th invocation prints the `$$success$$` sentinel and the
pickled mesh loads as `m`, and `none` when the subprocess dies silently.
The counter is incremented on entry; when it reaches `40` the driver
raises `RecursionError` (the retry-exhaustion error), modelled as
`.error` carrying the value of the attempt counter at the raise;
otherwise success returns the mesh with the reported attempt count. -/
def makeMeshForSim (tri : ℕ → Option Mesh) (nAttempts : ℕ) :
    Except ℕ (Mesh × ℕ) :=
  if h : 40 ≤ nAttempts + 1 then .error (nAttempts + 1)
  else
    match tri (nAttempts + 1) with
    | some m => .ok (m, nAttempts + 1)
    | none => makeMeshForSim tri (nAttempts + 1)
termination_by 40 - nAttempts
decreasing_by omega

/-- One side of a stitch: `{"panel": name, "edge": index}`. -/
structure SSide where
  panel : String
  edge : ℕ
deriving DecidableEq, Repr

/-- A concrete stitch: the two-element list of sides built by
`Pattern.add_stitch` and `Design._map_stitches`. -/
abbrev Stitch := SSide × SSide

/-- Model of `Pattern.add_stitch`: build the stitch entry and append it
only when the identical entry is not already present. -/
def addStitch (stitches : List Stitch) (panelA : String) (edgeA : ℕ)
    (panelB : String) (edgeB : ℕ) : List Stitch :=
  let st : Stitch := (⟨panelA, edgeA⟩, ⟨panelB, edgeB⟩)
  if st ∈ stitches then stitches else stitches ++ [st]

/-- Errors raised by `Design._map_stitches`: `ValueError` from
`panel_order.index` when a referenced panel is absent, and the
`RuntimeError` (a `ConfigurationMismatch`) when the two collected edge
lists have different lengths. -/
inductive MapErr
  | missingPanel
  | configurationMismatch
deriving DecidableEq, Repr

/-- Model of `Pattern.get_panel`: the first panel carrying the name. -/
def getPanel (panels : List Panel) (n : String) : Option Panel :=
  panels.find? fun p => p.name == n

/-- The edges of a panel whose `freesewing_ID` equals the requested id,
together with their positions in the edge list (Python collects the edge
objects and later recovers each position with `edges.index`, which finds
the object's own position). -/
def matchingEdges (p : Panel) (idv : ℤ) : List (ℕ × Edge) :=
  p.edges.enum.filter fun ie => ie.2.fsID == some idv

/-- Model of one iteration of `Design._map_stitches` for the abstract
stitch `((panelA, idA), (panelB, idB))`: collect the matching edges on
both sides, require equal cardinality, and pair them positionally. -/
def resolveStitch (panels : List Panel)
    (sp : (String × ℤ) × (String × ℤ)) : Except MapErr (List Stitch) :=
  match getPanel panels sp.1.1 with
  | none => .error .missingPanel
  | some a =>
    match getPanel panels sp.2.1 with
    | none => .error .missingPanel
    | some b =>
      let la := matchingEdges a sp.1.2
      let lb := matchingEdges b sp.2.2
      if la.length ≠ lb.length then .error .configurationMismatch
      else
        .ok ((la.zip lb).map fun x => (⟨sp.1.1, x.1.1⟩, ⟨sp.2.1, x.2.1⟩))

/-- Model of `Design._map_stitches` over the whole abstract stitch list,
concatenating the concrete entries produced for each abstract stitch. -/
def mapStitches (panels : List Panel) :
    List ((String × ℤ) × (String × ℤ)) → Except MapErr (List Stitch)
  | [] => .ok []
  | sp :: rest => do
    let s ← resolveStitch panels sp
    let r ← mapStitches panels rest
    .ok (s ++ r)

/-- Model of the segment objects produced by the external `svg.path`
parser: a `Move` (whose start and end coincide), a straight segment
(`Line`/`Close`), a quadratic Bezier, or a cubic Bezier. -/
inductive Seg
  | move (a : Pt)
  | lin (a b : Pt)
  | quad (a c b : Pt)
  | cubic (a c1 c2 b : Pt)
deriving DecidableEq, Repr

/-- Start point of a parsed segment (`segment.start`). -/
def Seg.startPt : Seg → Pt
  | .move a => a
  | .lin a _ => a
  | .quad a _ _ => a
  | .cubic a _ _ _ => a

/-- End point of a parsed segment (`segment.end`). -/
def Seg.stopPt : Seg → Pt
  | .move a => a
  | .lin _ b => b
  | .quad _ _ b => b
  | .cubic _ _ _ b => b

/-- Whether a segment is a cubic Bezier (`isinstance(segment, CubicBezier)`). -/
def Seg.isCubic : Seg → Bool
  | .cubic _ _ _ _ => true
  | _ => false

/-- Errors of `Panel.from_svg`: the `RuntimeError` raised on a cubic
segment (the `MalformedGeometry` error), and the `IndexError` from
`panel.edges[-1]` when no edge was produced. -/
inductive GeomErr
  | malformedGeometry
  | indexError
deriving DecidableEq, Repr

/-- Control point of a parsed segment, when it is a quadratic Bezier
(`segment.control`). -/
def Seg.control : Seg → Option Pt
  | .quad _ c _ => some c
  | _ => none

/-- The segment loop of `Panel.from_svg`: offset each segment by the path
bounding-box minimum, skip zero-length segments, raise on cubic Beziers
(`isinstance(segment, CubicBezier)`), and otherwise emit one edge (a
`Curve` for quadratic segments, with `endpoints = [index, index+1]`) and
one vertex per segment. -/
def buildEdges (minimum : Pt) : List Seg → ℕ → Except GeomErr (List Edge × List Pt)
  | [], _ => .ok ([], [])
  | s :: rest, index =>
    if s.startPt - minimum = s.stopPt - minimum then buildEdges minimum rest index
    else if s.isCubic then .error .malformedGeometry
    else
      match buildEdges minimum rest (index + 1) with
      | .error e => .error e
      | .ok (es, vs) =>
        .ok ({ p0 := s.startPt - minimum, p1 := s.stopPt - minimum,
               pc := s.control.map (· - minimum),
               endpoints := [index, index + 1] } :: es,
             (s.startPt - minimum) :: vs)

/-- `self.edges[-1].endpoints[1] = 0`: close the loop index of the final
edge. -/
def setLastSnd : List Edge → List Edge
  | [] => []
  | [e] => [{ e with endpoints := [e.endpoints.headD 0, 0] }]
  | e :: e' :: rest => e :: setLastSnd (e' :: rest)

/-- Model of `Panel.from_svg`.  `minimum` stands for the minimum corner of
`svg.path.parse_path(svg).boundingbox()`, which is computed by the
third-party `svg.path` library (external to this repository) and enters
the model as a parameter.  After the segment loop the panel is moved into
cartesian space and flipped vertically. -/
def fromSvgSegs (minimum : Pt) (segs : List Seg) : Except GeomErr Panel :=
  match buildEdges minimum segs 0 with
  | .error err => .error err
  | .ok (es, vs) =>
    if es.isEmpty then .error .indexError
    else
      let P : Panel := { edges := setLastSnd es, vertices := vs }
      let P1 := P.move P.offsetInCartesian
      .ok (P1.scale ⟨1, -1⟩)

/-- The closed-loop invariant of a panel's edge list:
`edges[k].p1 == edges[k+1 mod n].p0`. -/
def ClosedLoop (es : List Edge) : Prop :=
  ∀ i < es.length, (eAt es i).p1 = (eAt es ((i + 1) % es.length)).p0

/-- Euclidean distance `math.hypot(x1 - x2, y1 - y2)` between two points,
as in `functions.get_distance_between`. -/
noncomputable def distR (p q : Pt) : ℝ :=
  Real.sqrt (((p.x - q.x : ℚ) : ℝ) ^ 2 + ((p.y - q.y : ℚ) : ℝ) ^ 2)

/-- Model of `functions.get_distance_between(*points)`: the sum of the
distances between consecutive points. -/
noncomputable def pathLength : List Pt → ℝ
  | [] => 0
  | [_] => 0
  | a :: b :: rest => distR a b + pathLength (b :: rest)

/-- `Line.length`: the Euclidean distance between the two endpoints. -/
noncomputable def Edge.chordLen (e : Edge) : ℝ := distR e.p0 e.p1

/-- `Curve.length`: the polyline length of `self.sample(20)` (a chord-sum
approximation of the arc length). -/
noncomputable def Edge.arcLen (e : Edge) : ℝ := pathLength (e.sample 20)

/-- Round-half-to-even on a real, the semantics of Python's builtin
`round` idealised to real arithmetic. -/
noncomputable def rheR (y : ℝ) : ℤ :=
  if Int.fract y < 1 / 2 then ⌊y⌋
  else if 1 / 2 < Int.fract y then ⌊y⌋ + 1
  else if Even ⌊y⌋ then ⌊y⌋ else ⌊y⌋ + 1

/-- Python `round(y, nd)` on reals. -/
noncomputable def pyRoundR (nd : ℕ) (y : ℝ) : ℝ := (rheR (y * 10 ^ nd) : ℝ) / 10 ^ nd

/-- Python runtime errors reachable in `straighten_curves` /
`unsplit_lines`: `ZeroDivisionError` from `chord / arc` on a zero-length
curve, and `TypeError` from `min(None, int)` when only the removed edge
carries a `freesewing_ID`. -/
inductive PyErr
  | zeroDivision
  | typeError
deriving DecidableEq, Repr

/-- Model of `Curve.as_line()`: a freshly constructed `Line` between the
same geometric endpoints (`endpoints` and `freesewing_ID` reset by
`Line.__init__`). -/
def Edge.asLine (e : Edge) : Edge := { p0 := e.p0, p1 := e.p1 }

open Classical in
/-- Model of the loop body of `Panel.straighten_curves`: lines are left
alone; for each curve the ratio `chord / arc` is computed (Python raises
`ZeroDivisionError` when the sampled arc length is zero) and the curve is
replaced by `as_line()` when `round(ratio, 3) >= treshold`. -/
noncomputable def straightenEdges (thr : ℝ) : List Edge → Except PyErr (List Edge)
  | [] => .ok []
  | e :: rest =>
    match e.pc with
    | none => do
      let r ← straightenEdges thr rest
      .ok (e :: r)
    | some _ =>
      if e.arcLen = 0 then .error .zeroDivision
      else do
        let r ← straightenEdges thr rest
        .ok ((if thr ≤ pyRoundR 3 (e.chordLen / e.arcLen) then e.asLine else e) :: r)

/-- Model of `Panel.straighten_curves`. -/
noncomputable def Panel.straightenCurves (P : Panel) (thr : ℝ) : Except PyErr Panel := do
  let es ← straightenEdges thr P.edges
  .ok { P with edges := es }

open Classical in
/-- Model of the scanning loop of `Panel.unsplit_lines` (Python iterates
index `k` over the list while popping merged neighbours in place):
a `Curve` at position `k` is skipped; the loop breaks at the last
position; otherwise, when
`dist(e.p0, next.p1) / (dist(e.p0, e.p1) + dist(e.p1, next.p1))` reaches
the threshold the next edge is popped and the current edge is extended to
its end point, taking `min` of the `freesewing_ID`s when the popped edge
carries one (Python raises `TypeError` from `min(None, id)` if the kept
edge carries none). -/
noncomputable def unsplitGo (thr : ℝ) (es : List Edge) (k : ℕ) : Except PyErr (List Edge) :=
  if hk : k < es.length then
    if (eAt es k).pc.isSome then unsplitGo thr es (k + 1)
    else if es.length - 1 ≤ k then .ok es
    else
      let e := eAt es k
      let ne := eAt es (k + 1)
      if thr ≤ distR e.p0 ne.p1 / (distR e.p0 e.p1 + distR e.p1 ne.p1) then
        match ne.fsID, e.fsID with
        | some rid, some lid =>
          unsplitGo thr
            ((es.set k { e with p1 := ne.p1, fsID := some (min lid rid) }).eraseIdx (k + 1))
            (k + 1)
        | some _, none => .error .typeError
        | none, _ =>
          unsplitGo thr ((es.set k { e with p1 := ne.p1 }).eraseIdx (k + 1)) (k + 1)
      else unsplitGo thr es (k + 1)
  else .ok es
termination_by es.length - k
decreasing_by
all_goals simp_all [List.length_eraseIdx, List.length_set]
all_goals omega

/-- Model of `Panel.unsplit_lines`: run the scan from index `0`, then
`remake_vertices`. -/
noncomputable def Panel.unsplitLines (P : Panel) (thr : ℝ) : Except PyErr Panel := do
  let es ← unsplitGo thr P.edges 0
  .ok (Panel.remakeVertices { P with edges := es })

/-- Concrete input for `unsplit_lines`: a straight `Line` followed by a
genuinely curved `Curve` whose endpoints continue the line, then a
closing `Line`. -/
def unsplitDemo : Panel :=
  { edges := [
      { p0 := ⟨0, 0⟩, p1 := ⟨2, 0⟩, endpoints := [0, 1] },
      { p0 := ⟨2, 0⟩, p1 := ⟨4, 0⟩, pc := some ⟨3, 5⟩, endpoints := [1, 2] },
      { p0 := ⟨4, 0⟩, p1 := ⟨0, 0⟩, endpoints := [2, 0] }],
    vertices := [⟨0, 0⟩, ⟨2, 0⟩, ⟨4, 0⟩] }

/-- Concrete right triangle sitting strictly inside the positive quadrant
(no sampled point on either axis). -/
def posTriangle : Panel :=
  { edges := [
      { p0 := ⟨2, 2⟩, p1 := ⟨10, 2⟩, endpoints := [0, 1] },
      { p0 := ⟨10, 2⟩, p1 := ⟨10, 10⟩, endpoints := [1, 2] },
      { p0 := ⟨10, 10⟩, p1 := ⟨2, 2⟩, endpoints := [2, 0] }],
    vertices := [⟨2, 2⟩, ⟨10, 2⟩, ⟨10, 10⟩] }

/-- Concrete right triangle with its right-angle corner on the origin. -/
def originTriangle : Panel :=
  { edges := [
      { p0 := ⟨0, 0⟩, p1 := ⟨10, 0⟩, endpoints := [0, 1] },
      { p0 := ⟨10, 0⟩, p1 := ⟨10, 10⟩, endpoints := [1, 2] },
      { p0 := ⟨10, 10⟩, p1 := ⟨0, 0⟩, endpoints := [2, 0] }],
    vertices := [⟨0, 0⟩, ⟨10, 0⟩, ⟨10, 10⟩] }

/-- Concrete clockwise square panel (in cartesian space). -/
def cwSquare : Panel :=
  { edges := [
      { p0 := ⟨0, 0⟩, p1 := ⟨0, 6⟩, endpoints := [0, 1] },
      { p0 := ⟨0, 6⟩, p1 := ⟨6, 6⟩, endpoints := [1, 2] },
      { p0 := ⟨6, 6⟩, p1 := ⟨6, 0⟩, endpoints := [2, 3] },
      { p0 := ⟨6, 0⟩, p1 := ⟨0, 0⟩, endpoints := [3, 0] }],
    vertices := [⟨0, 0⟩, ⟨0, 6⟩, ⟨6, 6⟩, ⟨6, 0⟩] }

/-- Concrete panel named `A` with a single edge tagged `freesewing_ID 3`. -/
def panelA : Panel :=
  { name := "A",
    edges := [{ p0 := ⟨0, 0⟩, p1 := ⟨1, 0⟩, endpoints := [0, 0], fsID := some 3 }],
    vertices := [⟨0, 0⟩] }

/-- Concrete panel named `B` with a single edge tagged `freesewing_ID -3`. -/
def panelB : Panel :=
  { name := "B",
    edges := [{ p0 := ⟨0, 1⟩, p1 := ⟨1, 1⟩, endpoints := [0, 0], fsID := some (-3) }],
    vertices := [⟨0, 1⟩] }

/-- A `Curve` whose control point lies on the chord: geometrically a
straight segment from `(0,0)` to `(2,0)`. -/
def straightCurveEdge : Edge := { p0 := ⟨0, 0⟩, p1 := ⟨2, 0⟩, pc := some ⟨1, 0⟩ }

/-- Panel holding only `straightCurveEdge`. -/
def straightCurvePanel : Panel := { edges := [straightCurveEdge] }

/-- A degenerate `Curve` collapsed to a single point (its sampled arc
length is zero). -/
def pointCurvePanel : Panel :=
  { edges := [{ p0 := ⟨0, 0⟩, p1 := ⟨0, 0⟩, pc := some ⟨0, 0⟩ }] }

/-- Parsed segments of an SVG path that contains a cubic Bezier whose
start and end coincide (a degenerate loop segment), inside an otherwise
line-only triangle path. -/
def cubicLoopSegs : List Seg :=
  [.move ⟨0, 0⟩,
   .lin ⟨0, 0⟩ ⟨10, 0⟩,
   .lin ⟨10, 0⟩ ⟨10, 10⟩,
   .cubic ⟨10, 10⟩ ⟨5, 5⟩ ⟨6, 6⟩ ⟨10, 10⟩,
   .lin ⟨10, 10⟩ ⟨0, 0⟩]



/-- Specification-side predicate: `j` is the first index whose edge start
point attains the minimal Manhattan distance to `o` (ties broken by first
occurrence). -/
def FirstArgmin (o : Pt) (es : List Edge) (j : ℕ) : Prop :=
  j < es.length ∧
  (∀ i < es.length, manh o (eAt es j).p0 ≤ manh o (eAt es i).p0) ∧
  (∀ i < j, manh o (eAt es j).p0 < manh o (eAt es i).p0)

/-- Embedding of a planar point into `EuclideanSpace` (used only to
transport the metric triangle inequality to `distR`). -/
noncomputable def toE (p : Pt) : EuclideanSpace ℝ (Fin 2) := ![(p.x : ℝ), (p.y : ℝ)]

/-! ### Lemmas and claim theorems -/

theorem Pt.add_def (p q : Pt) : p + q = ⟨p.x + q.x, p.y + q.y⟩ := rfl

theorem Pt.sub_def (p q : Pt) : p - q = ⟨p.x - q.x, p.y - q.y⟩ := rfl

theorem Pt.mul_def (p q : Pt) : p * q = ⟨p.x * q.x, p.y * q.y⟩ := rfl

theorem Pt.neg_def (p : Pt) : -p = ⟨-p.x, -p.y⟩ := rfl

/-- With a triangulator stub that never emits the success sentinel, the
retry driver reaches the budget check with the attempt counter at 40 and
raises there, whatever the attempt count it was entered with. -/
theorem makeMeshForSim_exhausts : ∀ k n, n + k = 40 → 0 < k →
    makeMeshForSim (fun _ => none) n = .error 40 := by
  intro k
  induction k with
  | zero => omega
  | succ k ih =>
    intro n hn _
    rw [makeMeshForSim]
    by_cases h : 40 ≤ n + 1
    · simp only [h, dite_true]
      congr 1
      omega
    · simp only [h, dite_false]
      exact ih (n + 1) (by omega) (by omega)

/-- C1: retry policy of mesh preparation (`Pattern._make_mesh_for_sim`).
With a triangulator stub that fails the first 3 invocations and succeeds
on the 4th, the driver (entered with the default counter `0`) returns the
final mesh together with the reported attempt count `4`; with a stub that
never succeeds, it raises the retry-exhaustion error exactly when the
attempt counter reaches `40`. -/
theorem claim_retry_policy (m : Mesh) :
    makeMeshForSim (fun k => if k ≤ 3 then none else some m) 0 = .ok (m, 4) ∧
    makeMeshForSim (fun _ => none) 0 = .error 40 := by
  constructor
  · simp [makeMeshForSim]
  · exact makeMeshForSim_exhausts 40 0 rfl (by omega)

/-- C10: `Pattern.add_stitch` never creates duplicates.  Adding a stitch
that is already present leaves the list unchanged; `add_stitch` is
idempotent; and the number of occurrences of the added entry in the
result is `max(previous count, 1)`, so `add_stitch` never introduces a
second identical entry. -/
theorem claim_add_stitch_idempotent (stitches : List Stitch)
    (panelA edgeA panelB edgeB) :
    (((⟨panelA, edgeA⟩, ⟨panelB, edgeB⟩) : Stitch) ∈ stitches →
      addStitch stitches panelA edgeA panelB edgeB = stitches) ∧
    addStitch (addStitch stitches panelA edgeA panelB edgeB) panelA edgeA panelB edgeB
      = addStitch stitches panelA edgeA panelB edgeB ∧
    List.count ((⟨panelA, edgeA⟩, ⟨panelB, edgeB⟩) : Stitch)
        (addStitch stitches panelA edgeA panelB edgeB)
      = max (List.count ((⟨panelA, edgeA⟩, ⟨panelB, edgeB⟩) : Stitch) stitches) 1 := by
  refine ⟨fun h => by simp [addStitch, h], ?_, ?_⟩
  · simp only [addStitch]
    split
    · simp_all
    · simp_all
  · simp only [addStitch]
    split
    · next h =>
      have : 1 ≤ List.count ((⟨panelA, edgeA⟩, ⟨panelB, edgeB⟩) : Stitch) stitches :=
        List.one_le_count_iff.mpr h
      omega
    · next h =>
      have : List.count ((⟨panelA, edgeA⟩, ⟨panelB, edgeB⟩) : Stitch) stitches = 0 := by
        simp only [List.count_eq_zero]
        exact h
      simp [List.count_append, this]

/-- Witness for C10 at a concrete input: re-adding the stitch
`("front", 1)-("back", 2)` to a list that already holds it leaves the
list unchanged. -/
theorem claim_add_stitch_idempotent_witness :
    addStitch [(⟨"front", 1⟩, ⟨"back", 2⟩)] "front" 1 "back" 2
      = [(⟨"front", 1⟩, ⟨"back", 2⟩)] :=
  (claim_add_stitch_idempotent [(⟨"front", 1⟩, ⟨"back", 2⟩)] "front" 1 "back" 2).1
    (by simp)

/-- C2: stitch resolution (`Design._map_stitches`).  For the abstract
stitch `((A, idA), (B, idB))` over panels resolved by `get_panel`:
the collected list for a side holds exactly the (position, edge) pairs of
that panel whose `freesewing_ID` equals the requested id; unequal
cardinalities raise the `ConfigurationMismatch` error; equal cardinalities
pair the two lists positionally into one concrete stitch entry per pair;
and one matching edge on each side yields exactly one entry. -/
theorem claim_stitch_resolution (panels : List Panel) (nA nB : String)
    (idA idB : ℤ) (a b : Panel)
    (hA : getPanel panels nA = some a) (hB : getPanel panels nB = some b) :
    (∀ i e, (i, e) ∈ matchingEdges a idA ↔
      ∃ h : i < a.edges.length, a.edges[i] = e ∧ e.fsID = some idA) ∧
    ((matchingEdges a idA).length ≠ (matchingEdges b idB).length →
      resolveStitch panels ((nA, idA), (nB, idB)) = .error .configurationMismatch) ∧
    ((matchingEdges a idA).length = (matchingEdges b idB).length →
      resolveStitch panels ((nA, idA), (nB, idB)) =
        .ok (((matchingEdges a idA).zip (matchingEdges b idB)).map
          fun x => (⟨nA, x.1.1⟩, ⟨nB, x.2.1⟩))) ∧
    ((matchingEdges a idA).length = 1 → (matchingEdges b idB).length = 1 →
      ∃ i j, resolveStitch panels ((nA, idA), (nB, idB)) =
        .ok [(⟨nA, i⟩, ⟨nB, j⟩)]) := by
  refine ⟨?_, ?_, ?_, ?_⟩
  · intro i e
    simp only [matchingEdges, List.mem_filter, List.mk_mem_enum_iff_getElem?,
      beq_iff_eq, List.getElem?_eq_some_iff]
    constructor
    · rintro ⟨⟨h, he⟩, hid⟩
      exact ⟨h, he, hid⟩
    · rintro ⟨h, he, hid⟩
      exact ⟨⟨h, he⟩, hid⟩
  · intro hne
    simp only [resolveStitch, hA, hB]
    simp [hne]
  · intro heq
    simp only [resolveStitch, hA, hB]
    simp [heq]
  · intro ha1 hb1
    obtain ⟨x, hx⟩ := List.length_eq_one.mp ha1
    obtain ⟨y, hy⟩ := List.length_eq_one.mp hb1
    refine ⟨x.1, y.1, ?_⟩
    simp only [resolveStitch, hA, hB, hx, hy]
    simp

/-- Witness for C2 at the concrete pattern of the spec's test: panel `A`
has one edge with id `3`, panel `B` one edge with id `-3`; the collected
lists have length `1` on both sides and resolving yields exactly one
concrete stitch entry. -/
theorem claim_stitch_resolution_witness :
    (matchingEdges panelA 3).length = 1 ∧
    (matchingEdges panelB (-3)).length = 1 ∧
    ∃ i j, resolveStitch [panelA, panelB] (("A", 3), ("B", -3)) =
      .ok [(⟨"A", i⟩, ⟨"B", j⟩)] := by
  refine ⟨by decide, by decide, ?_⟩
  exact (claim_stitch_resolution [panelA, panelB] "A" "B" 3 (-3) panelA panelB
    (by decide) (by decide)).2.2.2 (by decide) (by decide)

theorem Pt.sub_right_cancel_iff {a b m : Pt} : a - m = b - m ↔ a = b := by
  cases a
  cases b
  cases m
  simp only [Pt.sub_def, Pt.mk.injEq]
  constructor
  · rintro ⟨h1, h2⟩
    constructor <;> linarith
  · rintro ⟨h1, h2⟩
    constructor <;> linarith

/-- The segment loop of `from_svg` raises the malformed-geometry error
exactly when some segment is a cubic Bezier whose (shifted) start and end
differ — a degenerate cubic is skipped by the `start == end` guard before
the cubic check runs. -/
theorem buildEdges_malformed_iff (minimum : Pt) :
    ∀ (segs : List Seg) (idx : ℕ),
      buildEdges minimum segs idx = .error .malformedGeometry ↔
        ∃ s ∈ segs, s.isCubic = true ∧ s.startPt ≠ s.stopPt := by
  intro segs
  induction segs with
  | nil => intro idx; simp [buildEdges]
  | cons s rest ih =>
    intro idx
    by_cases hse : s.startPt - minimum = s.stopPt - minimum
    · have hse' : s.startPt = s.stopPt := Pt.sub_right_cancel_iff.mp hse
      rw [buildEdges]
      simp only [hse, if_true]
      rw [ih idx]
      constructor
      · rintro ⟨t, ht, hc, hne⟩
        exact ⟨t, List.mem_cons_of_mem _ ht, hc, hne⟩
      · rintro ⟨t, ht, hc, hne⟩
        rcases List.mem_cons.mp ht with h | h
        · subst h; exact absurd hse' hne
        · exact ⟨t, h, hc, hne⟩
    · have hse' : s.startPt ≠ s.stopPt := fun h => hse (by rw [h])
      rw [buildEdges]
      simp only [hse, if_false]
      by_cases hc : s.isCubic
      · simp only [hc, if_true]
        simp only [true_iff]
        exact ⟨s, List.mem_cons_self _ _, hc, hse'⟩
      · simp only [hc, if_false]
        have hrec : (∃ t ∈ s :: rest, t.isCubic = true ∧ t.startPt ≠ t.stopPt) ↔
            (∃ t ∈ rest, t.isCubic = true ∧ t.startPt ≠ t.stopPt) := by
          constructor
          · rintro ⟨t, ht, htc, htne⟩
            rcases List.mem_cons.mp ht with h | h
            · subst h; exact absurd htc (by simp [hc])
            · exact ⟨t, h, htc, htne⟩
          · rintro ⟨t, ht, htc, htne⟩
            exact ⟨t, List.mem_cons_of_mem _ ht, htc, htne⟩
        rw [hrec, ← ih (idx + 1)]
        cases hb : buildEdges minimum rest (idx + 1) with
        | error e => simp [hb]
        | ok v => simp [hb]

/-- C9 counterexample: an SVG path that contains a cubic Bezier segment
whose start and end coincide builds a `Panel` without raising the
malformed-geometry error, so "for every SVG path input that contains a
cubic Bezier segment, building a Panel from it raises the
malformed-geometry error" is false on the code. -/
theorem claim_cubic_rejection_counterexample :
    (cubicLoopSegs.any Seg.isCubic = true) ∧
    (fromSvgSegs ⟨0, 0⟩ cubicLoopSegs).isOk = true := by
  constructor
  · decide
  · norm_num [fromSvgSegs, buildEdges, cubicLoopSegs, Seg.startPt, Seg.stopPt,
      Seg.isCubic, Seg.control, Pt.sub_def, Except.isOk, Except.toBool]

/-- C9 amended: `Panel.from_svg` raises the malformed-geometry error iff
the path contains a cubic Bezier segment with distinct start and end
points; a degenerate cubic (start = end) is skipped by the zero-length
guard, and inputs holding only move/line/quadratic segments never raise
this error. -/
theorem claim_cubic_rejection_amended (minimum : Pt) (segs : List Seg) :
    fromSvgSegs minimum segs = .error .malformedGeometry ↔
      ∃ s ∈ segs, s.isCubic = true ∧ s.startPt ≠ s.stopPt := by
  rw [← buildEdges_malformed_iff minimum segs 0]
  simp only [fromSvgSegs]
  cases hb : buildEdges minimum segs 0 with
  | error e =>
    cases e with
    | malformedGeometry => simp
    | indexError => simp
  | ok v =>
    by_cases hemp : v.1.isEmpty
    · simp [hemp]
    · simp [hemp]

@[simp] theorem eAt_cons_zero (e : Edge) (rest : List Edge) :
    eAt (e :: rest) 0 = e := rfl

@[simp] theorem eAt_cons_succ (e : Edge) (rest : List Edge) (k : ℕ) :
    eAt (e :: rest) (k + 1) = eAt rest k := rfl

theorem eAt_eq_getElem {es : List Edge} {i : ℕ} (h : i < es.length) :
    eAt es i = es[i] := by
  simp [eAt, List.getD_eq_getElem?_getD, List.getElem?_eq_getElem h]

/-- Full characterisation of the strict-improvement scan: either no
element of the remaining list beats the incumbent best distance (and the
incumbent index is returned), or the returned index points (relative to
`i`) at the first element attaining the minimum over the remaining list,
which strictly beats the incumbent. -/
theorem bestShiftGo_invariant (o : Pt) : ∀ (l : List Edge) (i : ℕ) (best : ℚ) (bi : ℕ),
    (bestShiftGo o l i best bi = bi ∧ ∀ k < l.length, best ≤ manh o (eAt l k).p0) ∨
    (∃ k, k < l.length ∧ bestShiftGo o l i best bi = i + k ∧
      manh o (eAt l k).p0 < best ∧
      (∀ m < l.length, manh o (eAt l k).p0 ≤ manh o (eAt l m).p0) ∧
      (∀ m < k, manh o (eAt l k).p0 < manh o (eAt l m).p0)) := by
  intro l
  induction l with
  | nil =>
    intro i best bi
    left
    refine ⟨rfl, ?_⟩
    intro k hk
    simp at hk
  | cons e rest ih =>
    intro i best bi
    by_cases hd : manh o e.p0 < best
    · right
      rcases ih (i + 1) (manh o e.p0) i with ⟨hr, hmin⟩ | ⟨k, hk, hr, hlt, hmin, hstrict⟩
      · refine ⟨0, by simp, ?_, by simpa using hd, ?_, ?_⟩
        · show bestShiftGo o (e :: rest) i best bi = i + 0
          simp only [bestShiftGo, if_pos hd]
          simpa using hr
        · intro m hm
          match m with
          | 0 => simp
          | m + 1 =>
            simpa using hmin m (by simpa using hm)
        · intro m hm
          omega
      · refine ⟨k + 1, by simpa using hk, ?_, ?_, ?_, ?_⟩
        · show bestShiftGo o (e :: rest) i best bi = i + (k + 1)
          simp only [bestShiftGo, if_pos hd]
          rw [hr]
          ring
        · simpa using lt_trans hlt hd
        · intro m hm
          match m with
          | 0 => simpa using le_of_lt hlt
          | m + 1 => simpa using hmin m (by simpa using hm)
        · intro m hm
          match m with
          | 0 => simpa using hlt
          | m + 1 => simpa using hstrict m (by omega)
    · rcases ih (i + 1) best bi with ⟨hr, hmin⟩ | ⟨k, hk, hr, hlt, hmin, hstrict⟩
      · left
        refine ⟨?_, ?_⟩
        · simp only [bestShiftGo, if_neg hd]
          exact hr
        · intro m hm
          match m with
          | 0 => simpa using le_of_not_lt hd
          | m + 1 => simpa using hmin m (by simpa using hm)
      · right
        refine ⟨k + 1, by simpa using hk, ?_, ?_, ?_, ?_⟩
        · show bestShiftGo o (e :: rest) i best bi = i + (k + 1)
          simp only [bestShiftGo, if_neg hd]
          rw [hr]
          ring
        · simpa using hlt
        · intro m hm
          match m with
          | 0 => simpa using le_of_lt (lt_of_lt_of_le hlt (le_of_not_lt hd))
          | m + 1 => simpa using hmin m (by simpa using hm)
        · intro m hm
          match m with
          | 0 => simpa using lt_of_lt_of_le hlt (le_of_not_lt hd)
          | m + 1 => simpa using hstrict m (by omega)

/-- The `shiftValue` of `order_edges` is the first index attaining the
minimal Manhattan distance to the origin. -/
theorem bestShift_firstArgmin (o : Pt) (es : List Edge) (hne : es ≠ []) :
    FirstArgmin o es (bestShift o es) := by
  match es, hne with
  | e :: rest, _ =>
    show FirstArgmin o (e :: rest) (bestShiftGo o rest 1 (manh o e.p0) 0)
    rcases bestShiftGo_invariant o rest 1 (manh o e.p0) 0 with
      ⟨hr, hmin⟩ | ⟨k, hk, hr, hlt, hmin, hstrict⟩
    · rw [hr]
      refine ⟨by simp, ?_, ?_⟩
      · intro i hi
        match i with
        | 0 => simp
        | i + 1 => simpa using hmin i (by simpa using hi)
      · intro i hi
        omega
    · rw [hr]
      refine ⟨by simp only [List.length_cons]; omega, ?_, ?_⟩
      · intro i hi
        have h0 : eAt (e :: rest) (1 + k) = eAt rest k := by
          rw [Nat.add_comm]
          simp
        rw [h0]
        match i with
        | 0 => simpa using le_of_lt hlt
        | i + 1 => simpa using hmin i (by simpa using hi)
      · intro i hi
        have h0 : eAt (e :: rest) (1 + k) = eAt rest k := by
          rw [Nat.add_comm]
          simp
        rw [h0]
        match i with
        | 0 => simpa using hlt
        | i + 1 => exact (by simpa using hstrict i (by omega))

/-- When the head start point already attains the minimum, the scan picks
index `0`. -/
theorem bestShift_eq_zero (o : Pt) (es : List Edge) (hne : es ≠ [])
    (hmin : ∀ i < es.length, manh o (eAt es 0).p0 ≤ manh o (eAt es i).p0) :
    bestShift o es = 0 := by
  obtain ⟨hlt, _, hstrict⟩ := bestShift_firstArgmin o es hne
  by_contra h0
  have hpos : 0 < bestShift o es := Nat.pos_of_ne_zero h0
  have h1 := hstrict 0 hpos
  have h2 := hmin (bestShift o es) hlt
  exact absurd h1 (not_lt.mpr h2)

@[simp] theorem length_remakeGo (n : ℕ) : ∀ (i : ℕ) (l : List Edge),
    (remakeGo n i l).length = l.length := by
  intro i l
  induction l generalizing i with
  | nil => rfl
  | cons e rest ih => simp [remakeGo, ih]

@[simp] theorem length_remakeEdges (l : List Edge) :
    (remakeEdges l).length = l.length := length_remakeGo _ _ _

theorem eAt_remakeGo (n : ℕ) : ∀ (i : ℕ) (l : List Edge) (k : ℕ), k < l.length →
    eAt (remakeGo n i l) k =
      { eAt l k with
        endpoints := if i + k + 1 = n then [i + k, 0] else [i + k, i + k + 1] } := by
  intro i l
  induction l generalizing i with
  | nil => intro k hk; simp at hk
  | cons e rest ih =>
    intro k hk
    match k with
    | 0 => simp [remakeGo]
    | k + 1 =>
      have := ih (i + 1) k (by simpa using hk)
      simp only [remakeGo, eAt_cons_succ]
      rw [this]
      have h1 : i + 1 + k = i + (k + 1) := by omega
      rw [h1]

theorem eAt_remakeEdges (l : List Edge) (k : ℕ) (hk : k < l.length) :
    eAt (remakeEdges l) k =
      { eAt l k with
        endpoints := if k + 1 = l.length then [k, 0] else [k, k + 1] } := by
  have := eAt_remakeGo l.length 0 l k hk
  simpa using this

theorem remakeGo_idem (n : ℕ) : ∀ (i : ℕ) (l : List Edge),
    remakeGo n i (remakeGo n i l) = remakeGo n i l := by
  intro i l
  induction l generalizing i with
  | nil => rfl
  | cons e rest ih => simp [remakeGo, ih]

theorem remakeEdges_idem (l : List Edge) :
    remakeEdges (remakeEdges l) = remakeEdges l := by
  unfold remakeEdges
  rw [length_remakeGo]
  exact remakeGo_idem _ _ _

theorem remakeVertices_idem (P : Panel) :
    (P.remakeVertices).remakeVertices = P.remakeVertices := by
  simp [Panel.remakeVertices, remakeEdges_idem]

@[simp] theorem swapEnds_p0 (e : Edge) : (Edge.swapEnds e).p0 = e.p1 := rfl

@[simp] theorem swapEnds_p1 (e : Edge) : (Edge.swapEnds e).p1 = e.p0 := rfl

@[simp] theorem swapEnds_pc (e : Edge) : (Edge.swapEnds e).pc = e.pc := rfl

theorem slTerm_swapEnds (e : Edge) : slTerm (Edge.swapEnds e) = -slTerm e := by
  simp only [slTerm, swapEnds_p0, swapEnds_p1]
  ring

theorem shoelace_remakeGo (n : ℕ) : ∀ (i : ℕ) (l : List Edge),
    shoelace (remakeGo n i l) = shoelace l := by
  intro i l
  induction l generalizing i with
  | nil => rfl
  | cons e rest ih =>
    simp only [remakeGo, shoelace, List.map_cons, List.sum_cons] at *
    rw [ih (i + 1)]
    rfl

theorem shoelace_remakeEdges (l : List Edge) :
    shoelace (remakeEdges l) = shoelace l := shoelace_remakeGo _ _ _

theorem shoelace_rotate (l : List Edge) (s : ℕ) :
    shoelace (l.rotate s) = shoelace l := by
  unfold shoelace
  exact ((l.rotate_perm s).map slTerm).sum_eq

theorem shoelace_reverse_swap (l : List Edge) :
    shoelace (l.reverse.map Edge.swapEnds) = -shoelace l := by
  unfold shoelace
  rw [List.map_map]
  have h1 : slTerm ∘ Edge.swapEnds = fun e => -slTerm e := by
    funext e
    exact slTerm_swapEnds e
  rw [h1]
  have h2 : (l.reverse.map fun e => -slTerm e) = (l.map fun e => -slTerm e).reverse := by
    rw [List.map_reverse]
  rw [h2, List.sum_reverse]
  have h3 : (l.map fun e => -slTerm e) = (l.map slTerm).map fun q => -q := by
    rw [List.map_map]
    rfl
  rw [h3]
  induction (l.map slTerm) with
  | nil => simp
  | cons q rest ih => simp [ih]; ring

theorem eAt_rotate (l : List Edge) (s k : ℕ) (hk : k < l.length) :
    eAt (l.rotate s) k = eAt l ((k + s) % l.length) := by
  have hlen : (l.rotate s).length = l.length := List.length_rotate l s
  have hk' : k < (l.rotate s).length := by rw [hlen]; exact hk
  rw [eAt_eq_getElem hk', eAt_eq_getElem (Nat.mod_lt _ (by omega))]
  exact List.getElem_rotate l s k hk'

theorem eAt_reverse_map_swap (l : List Edge) (k : ℕ) (hk : k < l.length) :
    eAt (l.reverse.map Edge.swapEnds) k = Edge.swapEnds (eAt l (l.length - 1 - k)) := by
  have h1 : k < (l.reverse.map Edge.swapEnds).length := by simpa using hk
  rw [eAt_eq_getElem h1, eAt_eq_getElem (by omega : l.length - 1 - k < l.length)]
  rw [List.getElem_map]
  congr 1
  rw [List.getElem_reverse]

@[simp] theorem samplePts_nil : samplePts [] = [] := rfl

@[simp] theorem samplePts_cons (e : Edge) (l : List Edge) :
    samplePts (e :: l) = e.sample 5 ++ samplePts l := by
  simp [samplePts]

theorem sample_update_endpoints (e : Edge) (x : List ℕ) (q : ℕ) :
    Edge.sample { e with endpoints := x } q = e.sample q := rfl

theorem samplePts_remakeGo (n : ℕ) : ∀ (i : ℕ) (l : List Edge),
    samplePts (remakeGo n i l) = samplePts l := by
  intro i l
  induction l generalizing i with
  | nil => rfl
  | cons e rest ih =>
    simp only [remakeGo, samplePts_cons, sample_update_endpoints]
    rw [ih (i + 1)]

theorem samplePts_remakeEdges (l : List Edge) :
    samplePts (remakeEdges l) = samplePts l := samplePts_remakeGo _ _ _

theorem pointAt_swapEnds (e : Edge) (t : ℚ) :
    (Edge.swapEnds e).pointAt t = e.pointAt (1 - t) := by
  cases e with
  | mk p0 p1 pc endpoints fsID =>
    cases pc with
    | none =>
      simp only [Edge.pointAt, Edge.swapEnds, pointOnLine, Pt.mk.injEq]
      constructor <;> ring
    | some c =>
      simp only [Edge.pointAt, Edge.swapEnds, pointOnQuadCurve, Pt.mk.injEq]
      constructor <;> ring

theorem sample5_explicit (e : Edge) :
    e.sample 5 = [e.p0, e.pointAt (1/5), e.pointAt (2/5), e.pointAt (3/5),
      e.pointAt (4/5), e.p1] := by
  norm_num [Edge.sample, List.range_succ, List.filterMap_cons, List.filterMap_nil]

theorem sample5_swapEnds (e : Edge) :
    (Edge.swapEnds e).sample 5 = (e.sample 5).reverse := by
  rw [sample5_explicit, sample5_explicit]
  simp only [pointAt_swapEnds, swapEnds_p0, swapEnds_p1, List.reverse_cons,
    List.reverse_nil, List.nil_append, List.cons_append, List.append_nil]
  norm_num

theorem samplePts_rotate_perm (l : List Edge) (s : ℕ) :
    List.Perm (samplePts (l.rotate s)) (samplePts l) := by
  unfold samplePts
  rw [List.map_rotate]
  exact ((l.map fun e => e.sample 5).rotate_perm s).flatten

theorem flatten_map_reverse_perm (f : Edge → List Pt) :
    ∀ (l : List Edge),
      List.Perm (l.map fun e => (f e).reverse).flatten (l.map f).flatten := by
  intro l
  induction l with
  | nil => rfl
  | cons e rest ih =>
    simp only [List.map_cons, List.flatten_cons]
    exact ((f e).reverse_perm).append ih

theorem samplePts_reverse_swap_perm (l : List Edge) :
    List.Perm (samplePts (l.reverse.map Edge.swapEnds)) (samplePts l) := by
  unfold samplePts
  rw [List.map_map]
  have h1 : ((fun e => e.sample 5) ∘ Edge.swapEnds) =
      fun e => (e.sample 5).reverse := by
    funext e
    exact sample5_swapEnds e
  rw [h1]
  refine (flatten_map_reverse_perm _ l.reverse).trans ?_
  exact (l.reverse_perm.map fun e => e.sample 5).flatten

theorem foldl_minStep_perm {l₁ l₂ : List Pt} (h : List.Perm l₁ l₂) (z : Pt) :
    l₁.foldl minStep z = l₂.foldl minStep z := by
  refine h.foldl_eq' ?_ z
  intro x _ y _ w
  simp only [minStep, Pt.mk.injEq]
  constructor <;> simp [min_left_comm]

theorem foldl_maxStep_perm {l₁ l₂ : List Pt} (h : List.Perm l₁ l₂) (z : Pt) :
    l₁.foldl maxStep z = l₂.foldl maxStep z := by
  refine h.foldl_eq' ?_ z
  intro x _ y _ w
  simp only [maxStep, Pt.mk.injEq]
  constructor <;> simp [max_left_comm]

/-- The samples of the reordered edge list are a permutation of the
original samples. -/
theorem samplePts_orderEdges_perm (P : Panel) (o : Pt) :
    List.Perm (samplePts (P.orderEdges o).edges) (samplePts P.edges) := by
  unfold Panel.orderEdges Panel.remakeVertices
  simp only
  rw [samplePts_remakeEdges]
  by_cases hcw : 0 < shoelace P.edges
  · simp only [hcw, if_true]
    exact (samplePts_reverse_swap_perm _).trans (samplePts_rotate_perm _ _)
  · simp only [hcw, if_false]
    exact samplePts_rotate_perm _ _

/-- `order_edges` does not change the panel's bounding box. -/
theorem getBbox_orderEdges (P : Panel) (o : Pt) :
    (P.orderEdges o).getBbox = P.getBbox := by
  have h := samplePts_orderEdges_perm P o
  unfold Panel.getBbox
  simp only
  rw [foldl_minStep_perm h, foldl_maxStep_perm h]

theorem p0_eAt_remakeEdges (l : List Edge) (k : ℕ) (hk : k < l.length) :
    (eAt (remakeEdges l) k).p0 = (eAt l k).p0 := by
  rw [eAt_remakeEdges l k hk]

theorem orderEdges_edges_def (P : Panel) (o : Pt) :
    (P.orderEdges o).edges = remakeEdges
      (if 0 < shoelace P.edges
        then (P.edges.rotate (bestShift o P.edges)).reverse.map Edge.swapEnds
        else P.edges.rotate (bestShift o P.edges)) := rfl

theorem length_orderEdges (P : Panel) (o : Pt) :
    (P.orderEdges o).edges.length = P.edges.length := by
  rw [orderEdges_edges_def, length_remakeEdges]
  by_cases hcw : 0 < shoelace P.edges
  · simp [hcw]
  · simp [hcw]

theorem shoelace_orderEdges (P : Panel) (o : Pt) :
    shoelace (P.orderEdges o).edges =
      if 0 < shoelace P.edges then -shoelace P.edges else shoelace P.edges := by
  rw [orderEdges_edges_def, shoelace_remakeEdges]
  by_cases hcw : 0 < shoelace P.edges
  · simp only [hcw, if_true]
    rw [shoelace_reverse_swap, shoelace_rotate]
  · simp only [hcw, if_false]
    exact shoelace_rotate _ _

/-- After `order_edges`, the start point of the first edge is the start
point of the scan-selected edge, and it attains the minimal Manhattan
distance to the origin over all start points of the result.  The
clockwise case uses the closed-loop invariant: reversing and swapping
makes the new first start point the old selected start point. -/
theorem orderEdges_start_min (P : Panel) (o : Pt) (hne : P.edges ≠ [])
    (hcl : ClosedLoop P.edges) :
    (eAt (P.orderEdges o).edges 0).p0 = (eAt P.edges (bestShift o P.edges)).p0 ∧
    ∀ k < (P.orderEdges o).edges.length,
      manh o (eAt P.edges (bestShift o P.edges)).p0 ≤
        manh o (eAt (P.orderEdges o).edges k).p0 := by
  obtain ⟨hs, hmin, _⟩ := bestShift_firstArgmin o P.edges hne
  have hn : 0 < P.edges.length := List.length_pos.mpr hne
  rw [orderEdges_edges_def]
  by_cases hcw : 0 < shoelace P.edges
  · simp only [hcw, if_true]
    have hlen : ((P.edges.rotate (bestShift o P.edges)).reverse.map
        Edge.swapEnds).length = P.edges.length := by
      simp
    have key : ∀ k, k < P.edges.length →
        (eAt ((P.edges.rotate (bestShift o P.edges)).reverse.map Edge.swapEnds) k).p0
          = (eAt P.edges ((P.edges.length - k + bestShift o P.edges) %
              P.edges.length)).p0 := by
      intro k hk
      have hk1 : k < (P.edges.rotate (bestShift o P.edges)).length := by
        rw [List.length_rotate]; exact hk
      rw [eAt_reverse_map_swap _ k hk1, swapEnds_p0, List.length_rotate]
      have hk2 : P.edges.length - 1 - k < P.edges.length := by omega
      rw [eAt_rotate _ _ _ hk2]
      have hmod : (P.edges.length - 1 - k + bestShift o P.edges) % P.edges.length
          < P.edges.length := Nat.mod_lt _ hn
      rw [hcl _ hmod]
      have hidx : ((P.edges.length - 1 - k + bestShift o P.edges) % P.edges.length + 1)
          % P.edges.length
          = (P.edges.length - k + bestShift o P.edges) % P.edges.length := by
        rw [Nat.mod_add_mod]
        have harith : P.edges.length - 1 - k + bestShift o P.edges + 1
            = P.edges.length - k + bestShift o P.edges := by omega
        rw [harith]
      rw [hidx]
    constructor
    · rw [p0_eAt_remakeEdges _ 0 (by rw [hlen]; exact hn), key 0 hn]
      congr 1
      rw [Nat.sub_zero, Nat.add_mod_left, Nat.mod_eq_of_lt hs]
    · intro k hk
      rw [length_remakeEdges, hlen] at hk
      rw [p0_eAt_remakeEdges _ k (by rw [hlen]; exact hk), key k hk]
      exact hmin _ (Nat.mod_lt _ hn)
  · simp only [hcw, if_false]
    have hlen : (P.edges.rotate (bestShift o P.edges)).length = P.edges.length :=
      List.length_rotate _ _
    constructor
    · rw [p0_eAt_remakeEdges _ 0 (by rw [hlen]; exact hn),
        eAt_rotate _ _ _ hn]
      congr 2
      rw [Nat.zero_add, Nat.mod_eq_of_lt hs]
    · intro k hk
      rw [length_remakeEdges, hlen] at hk
      rw [p0_eAt_remakeEdges _ k (by rw [hlen]; exact hk), eAt_rotate _ _ _ hk]
      exact hmin _ (Nat.mod_lt _ hn)

/-- C6: winding invariant.  For every panel whose edges form a closed
loop with nonzero shoelace sum, after `normalize_edge_order` the shoelace
sum `Σ (p1.x - p0.x) * (p1.y + p0.y)` over the edges is negative
(counter-clockwise canonical form), whatever the winding of the input
loop was. -/
theorem claim_winding_invariant (P : Panel) (hcl : ClosedLoop P.edges)
    (hnz : shoelace P.edges ≠ 0) :
    shoelace (P.normalizeEdgeOrder).edges < 0 := by
  unfold Panel.normalizeEdgeOrder
  rw [shoelace_orderEdges]
  rcases lt_trichotomy (shoelace P.edges) 0 with h | h | h
  · simp only [not_lt.mpr (le_of_lt h), if_false]
    exact h
  · exact absurd h hnz
  · simp only [h, if_true]
    linarith

/-- Witness for C6 at a concrete input: the clockwise unit square has
positive shoelace sum, and after normalization the sum is negative. -/
theorem claim_winding_invariant_witness :
    (ClosedLoop cwSquare.edges ∧ shoelace cwSquare.edges ≠ 0) ∧
    shoelace (cwSquare.normalizeEdgeOrder).edges < 0 := by
  have h1 : ClosedLoop cwSquare.edges := by
    intro i hi
    simp only [cwSquare, List.length_cons, List.length_nil] at hi
    interval_cases i <;> rfl
  have h2 : shoelace cwSquare.edges ≠ 0 := by
    norm_num [cwSquare, shoelace, slTerm]
  exact ⟨⟨h1, h2⟩, claim_winding_invariant cwSquare h1 h2⟩

/-- C5: canonical first edge.  For every panel whose edges form a closed
loop, after `normalize_edge_order` the start point of the first edge is
the start point of the pre-call edge selected by the scan — the first
edge (in pre-call order) whose start point has the smallest Manhattan
distance to the bounding-box minimum corner — and it attains the minimal
Manhattan distance to that corner among all start points of the
reordered list, regardless of the input winding direction. -/
theorem claim_canonical_first_edge (P : Panel) (hne : P.edges ≠ [])
    (hcl : ClosedLoop P.edges) :
    ∃ j, FirstArgmin P.getBbox.1 P.edges j ∧
      (eAt (P.normalizeEdgeOrder).edges 0).p0 = (eAt P.edges j).p0 ∧
      ∀ k < (P.normalizeEdgeOrder).edges.length,
        manh P.getBbox.1 (eAt (P.normalizeEdgeOrder).edges 0).p0 ≤
          manh P.getBbox.1 (eAt (P.normalizeEdgeOrder).edges k).p0 := by
  refine ⟨bestShift P.getBbox.1 P.edges,
    bestShift_firstArgmin _ _ hne, ?_, ?_⟩
  · exact (orderEdges_start_min P _ hne hcl).1
  · intro k hk
    have h0 := (orderEdges_start_min P P.getBbox.1 hne hcl).1
    have h1 := (orderEdges_start_min P P.getBbox.1 hne hcl).2 k hk
    unfold Panel.normalizeEdgeOrder
    rw [h0]
    exact h1

/-- Witness for C5 at a concrete input: the clockwise unit square. -/
theorem claim_canonical_first_edge_witness :
    (cwSquare.edges ≠ [] ∧ ClosedLoop cwSquare.edges) ∧
    ∃ j, FirstArgmin cwSquare.getBbox.1 cwSquare.edges j ∧
      (eAt (cwSquare.normalizeEdgeOrder).edges 0).p0 = (eAt cwSquare.edges j).p0 ∧
      ∀ k < (cwSquare.normalizeEdgeOrder).edges.length,
        manh cwSquare.getBbox.1 (eAt (cwSquare.normalizeEdgeOrder).edges 0).p0 ≤
          manh cwSquare.getBbox.1 (eAt (cwSquare.normalizeEdgeOrder).edges k).p0 := by
  have h1 : ClosedLoop cwSquare.edges := by
    intro i hi
    simp only [cwSquare, List.length_cons, List.length_nil] at hi
    interval_cases i <;> rfl
  have h2 : cwSquare.edges ≠ [] := by simp [cwSquare]
  exact ⟨⟨h2, h1⟩, claim_canonical_first_edge cwSquare h2 h1⟩

/-- C4: `normalize_edge_order` is idempotent.  For every panel whose
edges form a (nonempty) closed loop, applying `normalize_edge_order`
twice yields exactly the same panel — same edges in the same order with
the same orientation and endpoints, and the same rebuilt vertices — as
applying it once. -/
theorem claim_normalize_idempotent (P : Panel) (hne : P.edges ≠ [])
    (hcl : ClosedLoop P.edges) :
    (P.normalizeEdgeOrder).normalizeEdgeOrder = P.normalizeEdgeOrder := by
  have hbbox : (P.normalizeEdgeOrder).getBbox = P.getBbox :=
    getBbox_orderEdges P _
  have hlen : (P.normalizeEdgeOrder).edges.length = P.edges.length :=
    length_orderEdges P _
  have hn : 0 < P.edges.length := List.length_pos.mpr hne
  have hne1 : (P.normalizeEdgeOrder).edges ≠ [] := by
    intro h
    rw [h] at hlen
    simp at hlen
    omega
  -- the first start point of the normalized panel attains the minimum
  have hsm := orderEdges_start_min P P.getBbox.1 hne hcl
  have hshift : bestShift P.getBbox.1 (P.normalizeEdgeOrder).edges = 0 := by
    refine bestShift_eq_zero _ _ hne1 ?_
    intro i hi
    have := hsm.2 i hi
    unfold Panel.normalizeEdgeOrder at *
    rw [hsm.1]
    exact this
  have hsl : ¬ 0 < shoelace (P.normalizeEdgeOrder).edges := by
    show ¬ 0 < shoelace (P.orderEdges P.getBbox.1).edges
    rw [shoelace_orderEdges]
    by_cases hcw : 0 < shoelace P.edges
    · rw [if_pos hcw]
      linarith
    · rw [if_neg hcw]
      exact hcw
  show (P.normalizeEdgeOrder).orderEdges (P.normalizeEdgeOrder).getBbox.1 =
    P.normalizeEdgeOrder
  rw [hbbox]
  simp only [Panel.orderEdges, hshift, if_neg hsl, List.rotate_zero]
  show (P.normalizeEdgeOrder).remakeVertices = P.normalizeEdgeOrder
  unfold Panel.normalizeEdgeOrder Panel.orderEdges
  exact remakeVertices_idem _

/-- Witness for C4 at a concrete input: the clockwise unit square. -/
theorem claim_normalize_idempotent_witness :
    (cwSquare.edges ≠ [] ∧ ClosedLoop cwSquare.edges) ∧
    (cwSquare.normalizeEdgeOrder).normalizeEdgeOrder = cwSquare.normalizeEdgeOrder := by
  have h1 : ClosedLoop cwSquare.edges := by
    intro i hi
    simp only [cwSquare, List.length_cons, List.length_nil] at hi
    interval_cases i <;> rfl
  have h2 : cwSquare.edges ≠ [] := by simp [cwSquare]
  exact ⟨⟨h2, h1⟩, claim_normalize_idempotent cwSquare h2 h1⟩

theorem rheQ_err (q : ℚ) : |(rheQ q : ℚ) - q| ≤ 1 / 2 := by
  have h1 : (q.floor : ℚ) ≤ q := Rat.le_floor.mp (le_refl q.floor)
  have h2 : q < q.floor + 1 := by
    by_contra h
    push_neg at h
    have h3 : ((q.floor + 1 : ℤ) : ℚ) ≤ q := by push_cast; linarith
    have h4 := Rat.le_floor.mpr h3
    omega
  unfold rheQ
  split
  · next hlt =>
    rw [abs_le]
    constructor <;> linarith
  · next hge =>
    push_neg at hge
    split
    · next hgt =>
      push_cast
      rw [abs_le]
      constructor <;> linarith
    · next hle =>
      push_neg at hle
      have heq : q - (q.floor : ℚ) = 1 / 2 := le_antisymm hle hge
      split <;> (push_cast; rw [abs_le]; constructor <;> linarith)

theorem pyRoundQ4_err (q : ℚ) : |pyRoundQ 4 q - q| ≤ 1 / 20000 := by
  unfold pyRoundQ
  have h2 := rheQ_err (q * 10 ^ 4)
  have h3 : (rheQ (q * 10 ^ 4) : ℚ) / 10 ^ 4 - q
      = ((rheQ (q * 10 ^ 4) : ℚ) - q * 10 ^ 4) / 10 ^ 4 := by
    field_simp
    ring
  rw [h3, abs_div]
  have h4 : |(10 : ℚ) ^ (4 : ℕ)| = 10000 := by norm_num
  rw [h4]
  linarith

theorem pyRoundQ4_abs_le (z : ℚ) : |pyRoundQ 4 z| ≤ |z| + 1 / 20000 := by
  have h := pyRoundQ4_err z
  calc |pyRoundQ 4 z| = |z + (pyRoundQ 4 z - z)| := by ring_nf
    _ ≤ |z| + |pyRoundQ 4 z - z| := abs_add _ _
    _ ≤ |z| + 1 / 20000 := by linarith

@[simp] theorem foldMin_nil (z : ℚ) : foldMin [] z = z := rfl

@[simp] theorem foldMin_cons (q : ℚ) (l : List ℚ) (z : ℚ) :
    foldMin (q :: l) z = foldMin l (min q z) := rfl

@[simp] theorem foldMax_nil (z : ℚ) : foldMax [] z = z := rfl

@[simp] theorem foldMax_cons (q : ℚ) (l : List ℚ) (z : ℚ) :
    foldMax (q :: l) z = foldMax l (max q z) := rfl

theorem foldMin_le_seed : ∀ (l : List ℚ) (z : ℚ), foldMin l z ≤ z := by
  intro l
  induction l with
  | nil => intro z; simp
  | cons q rest ih =>
    intro z
    calc foldMin rest (min q z) ≤ min q z := ih _
      _ ≤ z := min_le_right _ _

theorem foldMin_le_mem : ∀ (l : List ℚ) (z u : ℚ), u ∈ l → foldMin l z ≤ u := by
  intro l
  induction l with
  | nil => intro z u hu; simp at hu
  | cons q rest ih =>
    intro z u hu
    rcases List.mem_cons.mp hu with h | h
    · subst h
      calc foldMin rest (min u z) ≤ min u z := foldMin_le_seed _ _
        _ ≤ u := min_le_left _ _
    · exact ih _ u h

theorem foldMin_seed_min : ∀ (l : List ℚ) (a b : ℚ),
    foldMin l (min a b) = min a (foldMin l b) := by
  intro l
  induction l with
  | nil => intro a b; simp
  | cons q rest ih =>
    intro a b
    simp only [foldMin_cons]
    rw [min_left_comm q a b, ih]

theorem foldMin_translate : ∀ (l : List ℚ) (c z : ℚ),
    foldMin (l.map fun v => v - c) (z - c) = foldMin l z - c := by
  intro l
  induction l with
  | nil => intro c z; simp
  | cons q rest ih =>
    intro c z
    simp only [List.map_cons, foldMin_cons]
    rw [show min (q - c) (z - c) = min q z - c by
      rcases le_total q z with h | h
      · rw [min_eq_left h, min_eq_left (by linarith)]
      · rw [min_eq_right h, min_eq_right (by linarith)]]
    exact ih c (min q z)

theorem foldMax_ge_seed : ∀ (l : List ℚ) (z : ℚ), z ≤ foldMax l z := by
  intro l
  induction l with
  | nil => intro z; simp
  | cons q rest ih =>
    intro z
    calc z ≤ max q z := le_max_right _ _
      _ ≤ foldMax rest (max q z) := ih _

theorem foldMax_ge_mem : ∀ (l : List ℚ) (z u : ℚ), u ∈ l → u ≤ foldMax l z := by
  intro l
  induction l with
  | nil => intro z u hu; simp at hu
  | cons q rest ih =>
    intro z u hu
    rcases List.mem_cons.mp hu with h | h
    · subst h
      calc u ≤ max u z := le_max_left _ _
        _ ≤ foldMax rest (max u z) := foldMax_ge_seed _ _
    · exact ih _ u h

theorem foldMax_seed_max : ∀ (l : List ℚ) (a b : ℚ),
    foldMax l (max a b) = max a (foldMax l b) := by
  intro l
  induction l with
  | nil => intro a b; simp
  | cons q rest ih =>
    intro a b
    simp only [foldMax_cons]
    rw [max_left_comm q a b, ih]

theorem foldMax_translate : ∀ (l : List ℚ) (c z : ℚ),
    foldMax (l.map fun v => v - c) (z - c) = foldMax l z - c := by
  intro l
  induction l with
  | nil => intro c z; simp
  | cons q rest ih =>
    intro c z
    simp only [List.map_cons, foldMax_cons]
    rw [show max (q - c) (z - c) = max q z - c by
      rcases le_total q z with h | h
      · rw [max_eq_right h, max_eq_right (by linarith)]
      · rw [max_eq_left h, max_eq_left (by linarith)]]
    exact ih c (max q z)

theorem foldl_minStep_x : ∀ (pts : List Pt) (z : Pt),
    (pts.foldl minStep z).x = foldMin (pts.map Pt.x) z.x := by
  intro pts
  induction pts with
  | nil => intro z; rfl
  | cons p rest ih =>
    intro z
    simp only [List.foldl_cons, List.map_cons, foldMin_cons]
    exact ih _

theorem foldl_minStep_y : ∀ (pts : List Pt) (z : Pt),
    (pts.foldl minStep z).y = foldMin (pts.map Pt.y) z.y := by
  intro pts
  induction pts with
  | nil => intro z; rfl
  | cons p rest ih =>
    intro z
    simp only [List.foldl_cons, List.map_cons, foldMin_cons]
    exact ih _

theorem foldl_maxStep_x : ∀ (pts : List Pt) (z : Pt),
    (pts.foldl maxStep z).x = foldMax (pts.map Pt.x) z.x := by
  intro pts
  induction pts with
  | nil => intro z; rfl
  | cons p rest ih =>
    intro z
    simp only [List.foldl_cons, List.map_cons, foldMax_cons]
    exact ih _

theorem foldl_maxStep_y : ∀ (pts : List Pt) (z : Pt),
    (pts.foldl maxStep z).y = foldMax (pts.map Pt.y) z.y := by
  intro pts
  induction pts with
  | nil => intro z; rfl
  | cons p rest ih =>
    intro z
    simp only [List.foldl_cons, List.map_cons, foldMax_cons]
    exact ih _

theorem getBbox_min_x (P : Panel) :
    (P.getBbox.1).x = foldMin ((samplePts P.edges).map Pt.x) 0 := by
  unfold Panel.getBbox
  exact foldl_minStep_x _ _

theorem getBbox_min_y (P : Panel) :
    (P.getBbox.1).y = foldMin ((samplePts P.edges).map Pt.y) 0 := by
  unfold Panel.getBbox
  exact foldl_minStep_y _ _

theorem getBbox_max_x (P : Panel) :
    (P.getBbox.2).x = foldMax ((samplePts P.edges).map Pt.x) 0 := by
  unfold Panel.getBbox
  exact foldl_maxStep_x _ _

theorem getBbox_max_y (P : Panel) :
    (P.getBbox.2).y = foldMax ((samplePts P.edges).map Pt.y) 0 := by
  unfold Panel.getBbox
  exact foldl_maxStep_y _ _

theorem getBbox_min_x_nonpos (P : Panel) : (P.getBbox.1).x ≤ 0 := by
  rw [getBbox_min_x]
  exact foldMin_le_seed _ _

theorem getBbox_min_y_nonpos (P : Panel) : (P.getBbox.1).y ≤ 0 := by
  rw [getBbox_min_y]
  exact foldMin_le_seed _ _

theorem getBbox_max_x_nonneg (P : Panel) : 0 ≤ (P.getBbox.2).x := by
  rw [getBbox_max_x]
  exact foldMax_ge_seed _ _

theorem getBbox_max_y_nonneg (P : Panel) : 0 ≤ (P.getBbox.2).y := by
  rw [getBbox_max_y]
  exact foldMax_ge_seed _ _

/-- The `center` property in midpoint form: the rounded midpoint of the
origin-seeded bounding box (the `abs` in `width`/`height` is redundant
because the seeded minimum is below the seeded maximum). -/
theorem center_eq_midpoint (P : Panel) :
    P.center = ⟨pyRoundQ 4 (((P.getBbox.2).x + (P.getBbox.1).x) / 2),
      pyRoundQ 4 (((P.getBbox.2).y + (P.getBbox.1).y) / 2)⟩ := by
  have hx : (P.getBbox.1).x ≤ (P.getBbox.2).x :=
    le_trans (getBbox_min_x_nonpos P) (getBbox_max_x_nonneg P)
  have hy : (P.getBbox.1).y ≤ (P.getBbox.2).y :=
    le_trans (getBbox_min_y_nonpos P) (getBbox_max_y_nonneg P)
  simp only [Panel.center]
  rw [abs_of_nonneg (by linarith : (0 : ℚ) ≤ (P.getBbox.2).y - (P.getBbox.1).y),
      abs_of_nonneg (by linarith : (0 : ℚ) ≤ (P.getBbox.2).x - (P.getBbox.1).x)]
  have e1 : ((P.getBbox.2).x - (P.getBbox.1).x) / 2 + (P.getBbox.1).x
      = ((P.getBbox.2).x + (P.getBbox.1).x) / 2 := by ring
  have e2 : ((P.getBbox.2).y - (P.getBbox.1).y) / 2 + (P.getBbox.1).y
      = ((P.getBbox.2).y + (P.getBbox.1).y) / 2 := by ring
  rw [e1, e2]

theorem foldMin_seed_swap : ∀ (rest : List ℚ) (v z : ℚ),
    foldMin rest (min v z) = min z (foldMin rest v) := by
  intro rest
  induction rest with
  | nil => intro v z; simp [min_comm]
  | cons q r ih =>
    intro v z
    simp only [foldMin_cons]
    rw [← min_assoc]
    exact ih (min q v) z

theorem foldMax_seed_swap : ∀ (rest : List ℚ) (v z : ℚ),
    foldMax rest (max v z) = max z (foldMax rest v) := by
  intro rest
  induction rest with
  | nil => intro v z; simp [max_comm]
  | cons q r ih =>
    intro v z
    simp only [foldMax_cons]
    rw [← max_assoc]
    exact ih (max q v) z

/-- Recentring a scalar sample set: when the samples straddle the origin
(so the origin seeding of the fold is inert) and the centre lies between
the folded extremes, translating by the centre translates both folded
extremes. -/
theorem recenter_scalar (xs : List ℚ) (c : ℚ)
    (h0 : ∃ u ∈ xs, u ≤ 0) (h0' : ∃ u ∈ xs, 0 ≤ u)
    (h1 : foldMin xs 0 ≤ c) (h2 : c ≤ foldMax xs 0) :
    foldMin (xs.map fun v => v - c) 0 = foldMin xs 0 - c ∧
    foldMax (xs.map fun v => v - c) 0 = foldMax xs 0 - c := by
  obtain ⟨u0, hu0, hu0le⟩ := h0
  cases xs with
  | nil => simp at hu0
  | cons v rest =>
    obtain ⟨u1, hu1, hu1ge⟩ := h0'
    have hM_le : ∀ u ∈ v :: rest, foldMin rest v ≤ u := by
      intro u hu
      rcases List.mem_cons.mp hu with h | h
      · subst h; exact foldMin_le_seed _ _
      · exact foldMin_le_mem _ _ _ h
    have hN_ge : ∀ u ∈ v :: rest, u ≤ foldMax rest v := by
      intro u hu
      rcases List.mem_cons.mp hu with h | h
      · subst h; exact foldMax_ge_seed _ _
      · exact foldMax_ge_mem _ _ _ h
    have hMle0 : foldMin rest v ≤ 0 := le_trans (hM_le u0 hu0) hu0le
    have hNge0 : 0 ≤ foldMax rest v := le_trans hu1ge (hN_ge u1 hu1)
    have hmn : foldMin (v :: rest) 0 = foldMin rest v := by
      rw [show foldMin (v :: rest) 0 = foldMin rest (min v 0) from rfl,
        foldMin_seed_swap]
      exact min_eq_right hMle0
    have hmx : foldMax (v :: rest) 0 = foldMax rest v := by
      rw [show foldMax (v :: rest) 0 = foldMax rest (max v 0) from rfl,
        foldMax_seed_swap]
      exact max_eq_right hNge0
    have hminc : foldMin (v :: rest) c = foldMin rest v := by
      rw [show foldMin (v :: rest) c = foldMin rest (min v c) from rfl,
        foldMin_seed_swap]
      exact min_eq_right (by rw [hmn] at h1; exact h1)
    have hmaxc : foldMax (v :: rest) c = foldMax rest v := by
      rw [show foldMax (v :: rest) c = foldMax rest (max v c) from rfl,
        foldMax_seed_swap]
      exact max_eq_right (by rw [hmx] at h2; exact h2)
    constructor
    · have ht := foldMin_translate (v :: rest) c c
      rw [sub_self] at ht
      rw [ht, hminc, hmn]
    · have ht := foldMax_translate (v :: rest) c c
      rw [sub_self] at ht
      rw [ht, hmaxc, hmx]

theorem pointAt_translate (e : Edge) (off : Pt) (t : ℚ) :
    ({ e with
        p0 := e.p0 + off
        p1 := e.p1 + off
        pc := e.pc.map (· + off) } : Edge).pointAt t = e.pointAt t + off := by
  cases e with
  | mk p0 p1 pc endpoints fsID =>
    cases pc with
    | none =>
      simp only [Edge.pointAt, Option.map_none', pointOnLine, Pt.add_def,
        Pt.mk.injEq]
      constructor <;> ring
    | some cpt =>
      simp only [Edge.pointAt, Option.map_some', pointOnQuadCurve, Pt.add_def,
        Pt.mk.injEq]
      constructor <;> ring

theorem sample_translate (e : Edge) (off : Pt) (q : ℕ) :
    ({ e with
        p0 := e.p0 + off
        p1 := e.p1 + off
        pc := e.pc.map (· + off) } : Edge).sample q
      = (e.sample q).map (· + off) := by
  simp only [Edge.sample, List.map_cons, List.map_append, List.map_filterMap,
    List.map_nil]
  congr 1
  congr 1
  apply List.filterMap_congr
  intro i _
  by_cases hc : i = 0 ∨ i = q
  · simp [hc]
  · simp only [hc, if_false, Option.map_some']
    rw [pointAt_translate]

theorem samplePts_move (P : Panel) (off : Pt) :
    samplePts (P.move off).edges = (samplePts P.edges).map (· + off) := by
  simp only [Panel.move, samplePts, List.map_map]
  rw [List.map_flatten]
  congr 1
  rw [List.map_map]
  congr 1
  funext e
  exact sample_translate e off 5

theorem center_orderEdges (P : Panel) (o : Pt) :
    (P.orderEdges o).center = P.center := by
  rw [center_eq_midpoint, center_eq_midpoint, getBbox_orderEdges]

theorem length_move (P : Panel) (off : Pt) :
    (P.move off).edges.length = P.edges.length := by
  simp [Panel.move]

theorem length_unfoldCore (P : Panel) (idx : ℕ) (hidx : idx < P.edges.length) :
    (P.unfoldCore idx).edges.length = 2 * (P.edges.length - 1) := by
  unfold Panel.unfoldCore
  simp only [Panel.remakeVertices, length_remakeEdges, List.length_append,
    List.length_map, List.length_reverse, length_orderEdges,
    List.length_eraseIdx]
  simp only [hidx, if_pos]
  omega

theorem length_unfoldOn (P : Panel) (idx : ℕ) (hidx : idx < P.edges.length) :
    (P.unfoldOn idx).edges.length = 2 * (P.edges.length - 1) := by
  unfold Panel.unfoldOn Panel.normalizeEdgeOrder
  rw [length_orderEdges, length_move]
  exact length_unfoldCore P idx hidx

/-- Recentring a panel whose samples straddle the origin and whose centre
lies inside the folded bounding box leaves the new centroid within one
rounding unit (`1/10^4`) of the origin. -/
theorem center_recenter_small (Q : Panel)
    (hx0 : ∃ p ∈ samplePts Q.edges, p.x ≤ 0)
    (hx0' : ∃ p ∈ samplePts Q.edges, 0 ≤ p.x)
    (hy0 : ∃ p ∈ samplePts Q.edges, p.y ≤ 0)
    (hy0' : ∃ p ∈ samplePts Q.edges, 0 ≤ p.y)
    (hx1 : (Q.getBbox.1).x ≤ Q.center.x) (hx2 : Q.center.x ≤ (Q.getBbox.2).x)
    (hy1 : (Q.getBbox.1).y ≤ Q.center.y) (hy2 : Q.center.y ≤ (Q.getBbox.2).y) :
    |((Q.move Q.offsetInCartesian).center).x| ≤ 1 / 10000 ∧
    |((Q.move Q.offsetInCartesian).center).y| ≤ 1 / 10000 := by
  have hoffx : (Q.offsetInCartesian).x = -Q.center.x := rfl
  have hoffy : (Q.offsetInCartesian).y = -Q.center.y := rfl
  have hmapx : (samplePts (Q.move Q.offsetInCartesian).edges).map Pt.x
      = ((samplePts Q.edges).map Pt.x).map fun v => v - Q.center.x := by
    rw [samplePts_move, List.map_map, List.map_map]
    congr 1
    funext p
    show (p + Q.offsetInCartesian).x = p.x - Q.center.x
    rw [Pt.add_def]
    show p.x + (Q.offsetInCartesian).x = p.x - Q.center.x
    rw [hoffx]
    ring
  have hmapy : (samplePts (Q.move Q.offsetInCartesian).edges).map Pt.y
      = ((samplePts Q.edges).map Pt.y).map fun v => v - Q.center.y := by
    rw [samplePts_move, List.map_map, List.map_map]
    congr 1
    funext p
    show (p + Q.offsetInCartesian).y = p.y - Q.center.y
    rw [Pt.add_def]
    show p.y + (Q.offsetInCartesian).y = p.y - Q.center.y
    rw [hoffy]
    ring
  have hx0e : ∃ u ∈ (samplePts Q.edges).map Pt.x, u ≤ 0 := by
    obtain ⟨p, hp, hple⟩ := hx0
    exact ⟨p.x, List.mem_map_of_mem Pt.x hp, hple⟩
  have hx0e' : ∃ u ∈ (samplePts Q.edges).map Pt.x, 0 ≤ u := by
    obtain ⟨p, hp, hple⟩ := hx0'
    exact ⟨p.x, List.mem_map_of_mem Pt.x hp, hple⟩
  have hy0e : ∃ u ∈ (samplePts Q.edges).map Pt.y, u ≤ 0 := by
    obtain ⟨p, hp, hple⟩ := hy0
    exact ⟨p.y, List.mem_map_of_mem Pt.y hp, hple⟩
  have hy0e' : ∃ u ∈ (samplePts Q.edges).map Pt.y, 0 ≤ u := by
    obtain ⟨p, hp, hple⟩ := hy0'
    exact ⟨p.y, List.mem_map_of_mem Pt.y hp, hple⟩
  have hrx := recenter_scalar ((samplePts Q.edges).map Pt.x) Q.center.x hx0e hx0e'
    (by rw [← getBbox_min_x]; exact hx1) (by rw [← getBbox_max_x]; exact hx2)
  have hry := recenter_scalar ((samplePts Q.edges).map Pt.y) Q.center.y hy0e hy0e'
    (by rw [← getBbox_min_y]; exact hy1) (by rw [← getBbox_max_y]; exact hy2)
  have hcQ := center_eq_midpoint Q
  have hcM := center_eq_midpoint (Q.move Q.offsetInCartesian)
  have hmdx : ((Q.move Q.offsetInCartesian).getBbox.2).x
      + ((Q.move Q.offsetInCartesian).getBbox.1).x
      = (Q.getBbox.2).x + (Q.getBbox.1).x - 2 * Q.center.x := by
    rw [getBbox_max_x, getBbox_min_x, hmapx, hrx.1, hrx.2,
      ← getBbox_min_x, ← getBbox_max_x]
    ring
  have hmdy : ((Q.move Q.offsetInCartesian).getBbox.2).y
      + ((Q.move Q.offsetInCartesian).getBbox.1).y
      = (Q.getBbox.2).y + (Q.getBbox.1).y - 2 * Q.center.y := by
    rw [getBbox_max_y, getBbox_min_y, hmapy, hry.1, hry.2,
      ← getBbox_min_y, ← getBbox_max_y]
    ring
  have hcmx : ((Q.move Q.offsetInCartesian).center).x
      = pyRoundQ 4 (((Q.getBbox.2).x + (Q.getBbox.1).x) / 2 - Q.center.x) := by
    rw [hcM]
    show pyRoundQ 4 ((((Q.move Q.offsetInCartesian).getBbox.2).x
      + ((Q.move Q.offsetInCartesian).getBbox.1).x) / 2) = _
    rw [hmdx]
    congr 1
    ring
  have hcmy : ((Q.move Q.offsetInCartesian).center).y
      = pyRoundQ 4 (((Q.getBbox.2).y + (Q.getBbox.1).y) / 2 - Q.center.y) := by
    rw [hcM]
    show pyRoundQ 4 ((((Q.move Q.offsetInCartesian).getBbox.2).y
      + ((Q.move Q.offsetInCartesian).getBbox.1).y) / 2) = _
    rw [hmdy]
    congr 1
    ring
  have hcx : Q.center.x = pyRoundQ 4 (((Q.getBbox.2).x + (Q.getBbox.1).x) / 2) := by
    rw [hcQ]
  have hcy : Q.center.y = pyRoundQ 4 (((Q.getBbox.2).y + (Q.getBbox.1).y) / 2) := by
    rw [hcQ]
  constructor
  · rw [hcmx]
    have herr : |((Q.getBbox.2).x + (Q.getBbox.1).x) / 2 - Q.center.x| ≤ 1 / 20000 := by
      rw [hcx]
      have := pyRoundQ4_err (((Q.getBbox.2).x + (Q.getBbox.1).x) / 2)
      rw [abs_sub_comm]
      exact this
    calc |pyRoundQ 4 (((Q.getBbox.2).x + (Q.getBbox.1).x) / 2 - Q.center.x)|
        ≤ |((Q.getBbox.2).x + (Q.getBbox.1).x) / 2 - Q.center.x| + 1 / 20000 :=
          pyRoundQ4_abs_le _
      _ ≤ 1 / 20000 + 1 / 20000 := by linarith
      _ = 1 / 10000 := by norm_num
  · rw [hcmy]
    have herr : |((Q.getBbox.2).y + (Q.getBbox.1).y) / 2 - Q.center.y| ≤ 1 / 20000 := by
      rw [hcy]
      have := pyRoundQ4_err (((Q.getBbox.2).y + (Q.getBbox.1).y) / 2)
      rw [abs_sub_comm]
      exact this
    calc |pyRoundQ 4 (((Q.getBbox.2).y + (Q.getBbox.1).y) / 2 - Q.center.y)|
        ≤ |((Q.getBbox.2).y + (Q.getBbox.1).y) / 2 - Q.center.y| + 1 / 20000 :=
          pyRoundQ4_abs_le _
      _ ≤ 1 / 20000 + 1 / 20000 := by linarith
      _ = 1 / 10000 := by norm_num

theorem mem_samplePts_p0 : ∀ (es : List Edge) (e : Edge), e ∈ es →
    e.p0 ∈ samplePts es := by
  intro es
  induction es with
  | nil => intro e he; simp at he
  | cons a rest ih =>
    intro e he
    rcases List.mem_cons.mp he with h | h
    · subst h
      rw [samplePts_cons]
      apply List.mem_append_left
      exact List.mem_cons_self _ _
    · rw [samplePts_cons]
      exact List.mem_append_right _ (ih e h)

set_option maxHeartbeats 2000000 in
/-- C8 counterexample: for the triangle `(2,2), (10,2), (10,10)` (a valid
closed 3-edge panel), `unfold(2)` leaves the centroid at `(1,1)` — far
outside floating tolerance of `(0,0)` — because `get_bbox` seeds its
extremes with the origin, which biases `center` for shapes that do not
straddle the axes.  So the claim "after unfold the panel's centroid is
within floating tolerance of `(0,0)`" is false on the code. -/
theorem claim_unfold_counterexample :
    (posTriangle.edges.length = 3 ∧ ClosedLoop posTriangle.edges) ∧
    (Panel.unfoldOn posTriangle 2).center = ⟨1, 1⟩ ∧
    ¬ (|(Panel.unfoldOn posTriangle 2).center.x| ≤ 1 / 10000 ∧
       |(Panel.unfoldOn posTriangle 2).center.y| ≤ 1 / 10000) := by
  have hc : (Panel.unfoldOn posTriangle 2).center = ⟨1, 1⟩ := by
    norm_num [Panel.unfoldOn, Panel.unfoldCore, Panel.orderEdges,
      Panel.normalizeEdgeOrder, Panel.remakeVertices, remakeEdges, remakeGo,
      bestShift, bestShiftGo, manh, shoelace, slTerm, eAt, reflectPt,
      Edge.swapEnds, Panel.move, Panel.center, Panel.getBbox,
      Panel.offsetInCartesian, Edge.sample, Edge.pointAt, pointOnLine,
      pointOnQuadCurve, minStep, maxStep, pyRoundQ, rheQ, Rat.floor_def',
      Int.even_iff, posTriangle, List.range_succ, List.filterMap_cons,
      List.filterMap_nil, List.foldl_cons, List.foldl_nil, List.rotate,
      List.eraseIdx, List.getD_cons_succ, List.getD_cons_zero, min_def,
      max_def, Pt.add_def, Pt.neg_def]
  have hcl : ClosedLoop posTriangle.edges := by
    intro i hi
    simp only [posTriangle, List.length_cons, List.length_nil] at hi
    interval_cases i <;> rfl
  refine ⟨⟨by decide, hcl⟩, hc, ?_⟩
  rw [hc]
  intro hcon
  have := hcon.1
  norm_num at this

/-- C8 amended: `unfold(edge_index)` on a panel with `n ≥ 2` edges forming
a closed loop always yields exactly `2*(n-1)` edges; the recentred
centroid lands within `1/10^4` of the origin provided the unfolded shape
(before recentring) straddles the origin on both axes and its centre lies
inside its origin-seeded bounding box — the conditions under which the
origin seeding of `get_bbox` is inert.  Without them the seeding biases
`center` and the centroid does not return to the origin. -/
theorem claim_unfold_amended (P : Panel) (idx : ℕ) (hidx : idx < P.edges.length)
    (h2 : 2 ≤ P.edges.length) (hcl : ClosedLoop P.edges)
    (hx0 : ∃ p ∈ samplePts (P.unfoldCore idx).edges, p.x ≤ 0)
    (hx0' : ∃ p ∈ samplePts (P.unfoldCore idx).edges, 0 ≤ p.x)
    (hy0 : ∃ p ∈ samplePts (P.unfoldCore idx).edges, p.y ≤ 0)
    (hy0' : ∃ p ∈ samplePts (P.unfoldCore idx).edges, 0 ≤ p.y)
    (hx1 : ((P.unfoldCore idx).getBbox.1).x ≤ (P.unfoldCore idx).center.x)
    (hx2 : (P.unfoldCore idx).center.x ≤ ((P.unfoldCore idx).getBbox.2).x)
    (hy1 : ((P.unfoldCore idx).getBbox.1).y ≤ (P.unfoldCore idx).center.y)
    (hy2 : (P.unfoldCore idx).center.y ≤ ((P.unfoldCore idx).getBbox.2).y) :
    (P.unfoldOn idx).edges.length = 2 * (P.edges.length - 1) ∧
    |(P.unfoldOn idx).center.x| ≤ 1 / 10000 ∧
    |(P.unfoldOn idx).center.y| ≤ 1 / 10000 := by
  have hkey := center_recenter_small (P.unfoldCore idx) hx0 hx0' hy0 hy0'
    hx1 hx2 hy1 hy2
  have hcen : (P.unfoldOn idx).center =
      ((P.unfoldCore idx).move (P.unfoldCore idx).offsetInCartesian).center := by
    unfold Panel.unfoldOn Panel.normalizeEdgeOrder
    exact center_orderEdges _ _
  refine ⟨length_unfoldOn P idx hidx, ?_, ?_⟩
  · rw [hcen]
    exact hkey.1
  · rw [hcen]
    exact hkey.2

set_option maxHeartbeats 2000000 in
/-- Witness for the amended C8 at a concrete input: unfolding the origin
triangle on its hypotenuse gives `4 = 2*(3-1)` edges and a centroid
within `1/10^4` of the origin (here exactly `(0,0)`). -/
theorem claim_unfold_amended_witness :
    (Panel.unfoldOn originTriangle 2).edges.length
      = 2 * (originTriangle.edges.length - 1) ∧
    |(Panel.unfoldOn originTriangle 2).center.x| ≤ 1 / 10000 ∧
    |(Panel.unfoldOn originTriangle 2).center.y| ≤ 1 / 10000 := by
  have hQ : originTriangle.unfoldCore 2 =
      { name := "panel", translation := (0, 0, 0), rotation := (0, 0, 0),
        edges := [
          { p0 := ⟨0, 0⟩, p1 := ⟨10, 0⟩, pc := none, endpoints := [0, 1],
            fsID := none },
          { p0 := ⟨10, 0⟩, p1 := ⟨10, 10⟩, pc := none, endpoints := [1, 2],
            fsID := none },
          { p0 := ⟨10, 10⟩, p1 := ⟨0, 10⟩, pc := none, endpoints := [2, 3],
            fsID := none },
          { p0 := ⟨0, 10⟩, p1 := ⟨0, 0⟩, pc := none, endpoints := [3, 0],
            fsID := none }],
        vertices := [⟨0, 0⟩, ⟨10, 0⟩, ⟨10, 10⟩, ⟨0, 10⟩] } := by
    norm_num [Panel.unfoldCore, Panel.orderEdges, Panel.remakeVertices,
      remakeEdges, remakeGo, bestShift, bestShiftGo, manh, shoelace, slTerm,
      eAt, reflectPt, Edge.swapEnds, originTriangle, List.rotate,
      List.eraseIdx, List.getD_cons_succ, List.getD_cons_zero]
  have hbb : (originTriangle.unfoldCore 2).getBbox = (⟨0, 0⟩, ⟨10, 10⟩) := by
    rw [hQ]
    norm_num [Panel.getBbox, Edge.sample, Edge.pointAt, pointOnLine,
      pointOnQuadCurve, minStep, maxStep, List.range_succ, List.filterMap_cons,
      List.filterMap_nil, List.foldl_cons, List.foldl_nil, min_def, max_def]
  have hcent : (originTriangle.unfoldCore 2).center = ⟨5, 5⟩ := by
    rw [center_eq_midpoint, hbb]
    norm_num [pyRoundQ, rheQ, Rat.floor_def', Int.even_iff]
  have hcl : ClosedLoop originTriangle.edges := by
    intro i hi
    simp only [originTriangle, List.length_cons, List.length_nil] at hi
    interval_cases i <;> rfl
  apply claim_unfold_amended originTriangle 2 (by decide) (by decide) hcl
  · refine ⟨⟨0, 0⟩, ?_, le_refl 0⟩
    rw [hQ]
    exact mem_samplePts_p0 _
      { p0 := ⟨0, 0⟩, p1 := ⟨10, 0⟩, pc := none, endpoints := [0, 1],
        fsID := none } (by decide)
  · refine ⟨⟨10, 10⟩, ?_, by norm_num⟩
    rw [hQ]
    exact mem_samplePts_p0 _
      { p0 := ⟨10, 10⟩, p1 := ⟨0, 10⟩, pc := none, endpoints := [2, 3],
        fsID := none } (by decide)
  · refine ⟨⟨0, 0⟩, ?_, le_refl 0⟩
    rw [hQ]
    exact mem_samplePts_p0 _
      { p0 := ⟨0, 0⟩, p1 := ⟨10, 0⟩, pc := none, endpoints := [0, 1],
        fsID := none } (by decide)
  · refine ⟨⟨10, 10⟩, ?_, by norm_num⟩
    rw [hQ]
    exact mem_samplePts_p0 _
      { p0 := ⟨10, 10⟩, p1 := ⟨0, 10⟩, pc := none, endpoints := [2, 3],
        fsID := none } (by decide)
  · rw [hbb, hcent]
    norm_num
  · rw [hbb, hcent]
    norm_num
  · rw [hbb, hcent]
    norm_num
  · rw [hbb, hcent]
    norm_num

/-! ### Metric helper lemmas for `straighten_curves` and `unsplit_lines` -/

theorem distR_self (p : Pt) : distR p p = 0 := by
  simp [distR]

theorem distR_horiz (a b c : ℚ) :
    distR ⟨a, c⟩ ⟨b, c⟩ = |((a - b : ℚ) : ℝ)| := by
  rw [distR]
  simp only [sub_self, Rat.cast_zero]
  rw [show ((0 : ℝ)) ^ 2 = 0 by norm_num, add_zero]
  exact Real.sqrt_sq_eq_abs _

theorem distR_eq_dist (p q : Pt) : distR p q = dist (toE p) (toE q) := by
  rw [EuclideanSpace.dist_eq, distR]
  congr 1
  rw [Fin.sum_univ_two]
  simp [toE, Real.dist_eq, sq_abs]

theorem distR_triangle (p q r : Pt) : distR p r ≤ distR p q + distR q r := by
  rw [distR_eq_dist, distR_eq_dist, distR_eq_dist]
  exact dist_triangle _ _ _

theorem distR_nonneg (p q : Pt) : 0 ≤ distR p q := Real.sqrt_nonneg _

theorem pathLength_nonneg : ∀ l : List Pt, 0 ≤ pathLength l
  | [] => le_refl 0
  | [_] => le_refl 0
  | a :: b :: rest => by
    rw [pathLength]
    have h1 := distR_nonneg a b
    have h2 := pathLength_nonneg (b :: rest)
    linarith

theorem pathLength_ge : ∀ (mid : List Pt) (a b : Pt),
    distR a b ≤ pathLength (a :: (mid ++ [b])) := by
  intro mid
  induction mid with
  | nil =>
    intro a b
    simp only [List.nil_append, pathLength]
    have := pathLength_nonneg [b]
    simp only [pathLength] at this
    linarith
  | cons c rest ih =>
    intro a b
    rw [List.cons_append, pathLength]
    have h1 := ih c b
    have h2 := distR_triangle a c b
    linarith

theorem chordLen_le_arcLen (e : Edge) : e.chordLen ≤ e.arcLen := by
  rw [Edge.chordLen, Edge.arcLen, Edge.sample]
  exact pathLength_ge _ e.p0 e.p1

theorem pathLength_all_eq : ∀ (l : List Pt) (p : Pt),
    (∀ x ∈ l, x = p) → pathLength l = 0
  | [], _, _ => rfl
  | [_], _, _ => rfl
  | a :: b :: rest, p, h => by
    rw [pathLength]
    have ha : a = p := h a (by simp)
    have hb : b = p := h b (by simp)
    rw [ha, hb, distR_self, zero_add]
    exact pathLength_all_eq (p :: rest) p (by
      intro x hx
      rcases List.mem_cons.mp hx with h1 | h1
      · exact h1
      · exact h x (by simp [h1]))

theorem rheR_err (y : ℝ) : |(rheR y : ℝ) - y| ≤ 1 / 2 := by
  have hf0 : 0 ≤ Int.fract y := Int.fract_nonneg y
  have hf1 : Int.fract y < 1 := Int.fract_lt_one y
  have hfl : (⌊y⌋ : ℝ) + Int.fract y = y := Int.floor_add_fract y
  rw [rheR]
  split_ifs with h1 h2 h3
  · rw [abs_le]
    constructor <;> linarith
  · rw [abs_le]
    push_cast
    constructor <;> linarith
  · have heq : Int.fract y = 1 / 2 := by linarith
    rw [abs_le]
    constructor <;> linarith
  · have heq : Int.fract y = 1 / 2 := by linarith
    rw [abs_le]
    push_cast
    constructor <;> linarith

theorem rheR_nonneg (y : ℝ) (hy : 0 ≤ y) : 0 ≤ rheR y := by
  have herr := rheR_err y
  rw [abs_le] at herr
  by_contra hneg
  push_neg at hneg
  have h1 : rheR y ≤ -1 := by omega
  have h2 : ((rheR y : ℤ) : ℝ) ≤ ((-1 : ℤ) : ℝ) := by exact_mod_cast h1
  push_cast at h2
  linarith [herr.1]

theorem rheR_le_int (y : ℝ) (n : ℤ) (hy : y ≤ n) : rheR y ≤ n := by
  have herr := rheR_err y
  rw [abs_le] at herr
  have : (rheR y : ℝ) < (n : ℝ) + 1 := by linarith [herr.2]
  exact_mod_cast Int.lt_add_one_iff.mp (by exact_mod_cast this)

theorem pyRoundR3_nonneg (y : ℝ) (hy : 0 ≤ y) : 0 ≤ pyRoundR 3 y := by
  rw [pyRoundR]
  have h := rheR_nonneg (y * 10 ^ 3) (by positivity)
  positivity

theorem pyRoundR3_le_one (y : ℝ) (hy : y ≤ 1) : pyRoundR 3 y ≤ 1 := by
  rw [pyRoundR]
  have h : rheR (y * 10 ^ 3) ≤ 1000 := by
    apply rheR_le_int
    push_cast
    nlinarith
  rw [div_le_one (by norm_num)]
  calc ((rheR (y * 10 ^ 3) : ℤ) : ℝ) ≤ ((1000 : ℤ) : ℝ) := by exact_mod_cast h
    _ = 10 ^ 3 := by norm_num

open Classical in
theorem straightenEdges_eq_map (thr : ℝ) : ∀ es : List Edge,
    (∀ e ∈ es, e.pc.isSome = true → e.arcLen ≠ 0) →
    straightenEdges thr es = .ok (es.map fun e =>
      if e.pc.isSome = true ∧ thr ≤ pyRoundR 3 (e.chordLen / e.arcLen)
      then e.asLine else e)
  | [], _ => rfl
  | e :: rest, h => by
    have hrest := straightenEdges_eq_map thr rest
      (fun x hx hpc => h x (List.mem_cons_of_mem _ hx) hpc)
    match hpc : e.pc with
    | none =>
      simp only [straightenEdges, hpc, List.map_cons]
      rw [hrest]
      rw [if_neg (by simp :
        ¬ ((none : Option Pt).isSome = true ∧ thr ≤ pyRoundR 3 (e.chordLen / e.arcLen)))]
      rfl
    | some c =>
      have hne := h e (List.mem_cons_self _ _) (by rw [hpc]; rfl)
      simp only [straightenEdges, hpc, List.map_cons]
      rw [if_neg hne, hrest]
      by_cases hth : thr ≤ pyRoundR 3 (e.chordLen / e.arcLen)
      · rw [if_pos hth, if_pos ⟨rfl, hth⟩]
        rfl
      · rw [if_neg hth, if_neg (fun hcon => hth hcon.2)]
        rfl

/-- C7 counterexample: `straighten_curves(0.0)` does not convert every
`Curve` — on a degenerate curve collapsed to one point the sampled arc
length is `0` and `edge.as_line().length / edge.length` raises
`ZeroDivisionError` before any conversion happens. -/
theorem claim_straighten_counterexample :
    (eAt pointCurvePanel.edges 0).pc.isSome = true ∧
    Panel.straightenCurves pointCurvePanel 0 = .error .zeroDivision := by
  refine ⟨rfl, ?_⟩
  have hall : ∀ x ∈ (({ p0 := ⟨0, 0⟩, p1 := ⟨0, 0⟩, pc := some ⟨0, 0⟩ } : Edge).sample 20),
      x = (⟨0, 0⟩ : Pt) := by
    intro x hx
    rw [Edge.sample] at hx
    rcases List.mem_cons.mp hx with h1 | h1
    · exact h1
    rcases List.mem_append.mp h1 with h2 | h2
    · rcases List.mem_filterMap.mp h2 with ⟨i, hi, hfi⟩
      by_cases hc : i = 0 ∨ i = 20
      · rw [if_pos hc] at hfi
        exact absurd hfi (by simp)
      · rw [if_neg hc] at hfi
        have hx2 := Option.some.inj hfi
        rw [← hx2]
        simp [Edge.pointAt, pointOnQuadCurve]
    · rw [List.mem_singleton] at h2
      exact h2
  have harc0 : ({ p0 := ⟨0, 0⟩, p1 := ⟨0, 0⟩, pc := some ⟨0, 0⟩ } : Edge).arcLen = 0 := by
    rw [Edge.arcLen]
    exact pathLength_all_eq _ _ hall
  have hse : straightenEdges 0 pointCurvePanel.edges = .error .zeroDivision := by
    show straightenEdges 0
      [({ p0 := ⟨0, 0⟩, p1 := ⟨0, 0⟩, pc := some ⟨0, 0⟩ } : Edge)] = _
    simp only [straightenEdges]
    rw [if_pos harc0]
  unfold Panel.straightenCurves
  rw [hse]
  rfl

open Classical in
/-- C7 amended: provided every `Curve` edge has nonzero sampled arc
length (otherwise `straighten_curves` raises `ZeroDivisionError`), the
method returns the panel with each edge mapped: a `Curve` becomes
`as_line()` exactly when `round(chord/arc, 3) >= treshold` and `Line`s
are untouched.  Moreover for such curves `round(chord/arc, 3)` lies in
`[0, 1]` (the chord never exceeds the sampled arc), so with threshold
`1.0` a curve is converted iff `round(chord/arc, 3) = 1`, and with
threshold `0.0` every curve is converted. -/
theorem claim_straighten_amended (P : Panel) (thr : ℝ)
    (harc : ∀ e ∈ P.edges, e.pc.isSome = true → e.arcLen ≠ 0) :
    P.straightenCurves thr = .ok { P with edges := P.edges.map fun e =>
      if e.pc.isSome = true ∧ thr ≤ pyRoundR 3 (e.chordLen / e.arcLen)
      then e.asLine else e } ∧
    (∀ e ∈ P.edges, e.pc.isSome = true →
      (((1 : ℝ) ≤ pyRoundR 3 (e.chordLen / e.arcLen)) ↔
        pyRoundR 3 (e.chordLen / e.arcLen) = 1)) ∧
    (∀ e ∈ P.edges, e.pc.isSome = true →
      (0 : ℝ) ≤ pyRoundR 3 (e.chordLen / e.arcLen)) := by
  refine ⟨?_, ?_, ?_⟩
  · unfold Panel.straightenCurves
    rw [straightenEdges_eq_map thr P.edges harc]
    rfl
  · intro e he hps
    have hne := harc e he hps
    have hpos : 0 < e.arcLen := lt_of_le_of_ne (pathLength_nonneg _) (Ne.symm hne)
    have hle1 : e.chordLen / e.arcLen ≤ 1 :=
      (div_le_one hpos).mpr (chordLen_le_arcLen e)
    have hub := pyRoundR3_le_one _ hle1
    constructor
    · intro h
      linarith
    · intro h
      rw [h]
  · intro e he hps
    have hne := harc e he hps
    have hpos : 0 < e.arcLen := lt_of_le_of_ne (pathLength_nonneg _) (Ne.symm hne)
    have h0 : 0 ≤ e.chordLen / e.arcLen :=
      div_nonneg (distR_nonneg _ _) (le_of_lt hpos)
    exact pyRoundR3_nonneg _ h0

open Classical in
set_option maxHeartbeats 2000000 in
/-- Witness for the amended C7: the quadratic curve from `(0,0)` to
`(2,0)` with control `(1,0)` is straight, its sampled arc length is `2`
(nonzero), and `straighten_curves(1.0)` converts it. -/
theorem claim_straighten_amended_witness :
    (straightCurvePanel.straightenCurves 1 = .ok { straightCurvePanel with
      edges := straightCurvePanel.edges.map fun e =>
        if e.pc.isSome = true ∧ (1 : ℝ) ≤ pyRoundR 3 (e.chordLen / e.arcLen)
        then e.asLine else e } ∧
    (∀ e ∈ straightCurvePanel.edges, e.pc.isSome = true →
      (((1 : ℝ) ≤ pyRoundR 3 (e.chordLen / e.arcLen)) ↔
        pyRoundR 3 (e.chordLen / e.arcLen) = 1)) ∧
    (∀ e ∈ straightCurvePanel.edges, e.pc.isSome = true →
      (0 : ℝ) ≤ pyRoundR 3 (e.chordLen / e.arcLen))) := by
  apply claim_straighten_amended straightCurvePanel 1
  intro e he hps
  have hsamp : straightCurveEdge.sample 20 = [⟨0, 0⟩, ⟨1/10, 0⟩, ⟨1/5, 0⟩, ⟨3/10, 0⟩, ⟨2/5, 0⟩, ⟨1/2, 0⟩, ⟨3/5, 0⟩, ⟨7/10, 0⟩, ⟨4/5, 0⟩, ⟨9/10, 0⟩, ⟨1, 0⟩, ⟨11/10, 0⟩, ⟨6/5, 0⟩, ⟨13/10, 0⟩, ⟨7/5, 0⟩, ⟨3/2, 0⟩, ⟨8/5, 0⟩, ⟨17/10, 0⟩, ⟨9/5, 0⟩, ⟨19/10, 0⟩, ⟨2, 0⟩] := by
    norm_num [straightCurveEdge, Edge.sample, Edge.pointAt, pointOnQuadCurve,
      List.range_succ, List.filterMap_cons, List.filterMap_nil]
  have harcv : straightCurveEdge.arcLen = 2 := by
    rw [Edge.arcLen, hsamp]
    simp only [pathLength, distR_horiz]
    push_cast
    norm_num [abs_of_nonneg]
  have hee : e = straightCurveEdge := by
    simpa [straightCurvePanel] using he
  rw [hee, harcv]
  norm_num

set_option maxHeartbeats 2000000 in
/-- C3: `unsplit_lines` does merge across a `Curve`, contradicting both
the claim and the code's own comment ("I will only merge straight
lines"): the scan only skips when the LEFT edge of the pair is a
`Curve`.  On a `Line` followed by a `Curve` whose endpoints continue it,
the ratio test passes and the `Curve` is popped and absorbed into the
`Line`, silently discarding its control point. -/
theorem claim_unsplit_code_bug :
    (eAt unsplitDemo.edges 1).pc = some ⟨3, 5⟩ ∧
    Panel.unsplitLines unsplitDemo (9999 / 10000) = .ok
      { name := "panel", translation := (0, 0, 0), rotation := (0, 0, 0),
        edges := [
          { p0 := ⟨0, 0⟩, p1 := ⟨4, 0⟩, pc := none, endpoints := [0, 1],
            fsID := none },
          { p0 := ⟨4, 0⟩, p1 := ⟨0, 0⟩, pc := none, endpoints := [1, 0],
            fsID := none }],
        vertices := [⟨0, 0⟩, ⟨4, 0⟩] } := by
  refine ⟨rfl, ?_⟩
  have d1 : distR ⟨0, 0⟩ ⟨4, 0⟩ = 4 := by
    rw [distR_horiz]
    push_cast
    norm_num [abs_of_nonneg]
  have d2 : distR ⟨0, 0⟩ ⟨2, 0⟩ = 2 := by
    rw [distR_horiz]
    push_cast
    norm_num [abs_of_nonneg]
  have d3 : distR ⟨2, 0⟩ ⟨4, 0⟩ = 2 := by
    rw [distR_horiz]
    push_cast
    norm_num [abs_of_nonneg]
  have step0 : unsplitGo (9999 / 10000 : ℝ) unsplitDemo.edges 0
      = unsplitGo (9999 / 10000 : ℝ) [
          { p0 := ⟨0, 0⟩, p1 := ⟨4, 0⟩, pc := none, endpoints := [0, 1],
            fsID := none },
          { p0 := ⟨4, 0⟩, p1 := ⟨0, 0⟩, pc := none, endpoints := [2, 0],
            fsID := none }] 1 := by
    rw [unsplitGo]
    rw [dif_pos (by decide : 0 < unsplitDemo.edges.length)]
    simp only [unsplitDemo, eAt, List.getD_cons_zero, List.getD_cons_succ]
    norm_num [d1, d2, d3, List.set, List.eraseIdx]
  have step1 : unsplitGo (9999 / 10000 : ℝ) [
          { p0 := ⟨0, 0⟩, p1 := ⟨4, 0⟩, pc := none, endpoints := [0, 1],
            fsID := none },
          { p0 := ⟨4, 0⟩, p1 := ⟨0, 0⟩, pc := none, endpoints := [2, 0],
            fsID := none }] 1
      = .ok [
          { p0 := ⟨0, 0⟩, p1 := ⟨4, 0⟩, pc := none, endpoints := [0, 1],
            fsID := none },
          { p0 := ⟨4, 0⟩, p1 := ⟨0, 0⟩, pc := none, endpoints := [2, 0],
            fsID := none }] := by
    rw [unsplitGo]
    norm_num [eAt, List.getD_cons_zero, List.getD_cons_succ, List.length_cons,
      List.length_nil, dite_eq_ite]
  unfold Panel.unsplitLines
  rw [step0, step1]
  norm_num [unsplitDemo, Panel.remakeVertices, remakeEdges, remakeGo,
    Bind.bind, Except.bind, List.length_cons, List.length_nil]

end Costumy
